import Mathlib

/-!
# qelog: alarm rule state machine, rule registry reload, collection naming

A shallow embedding of

* `pkg/receiver/alarm/alarm.go` (`Alarm`, `RuleState`, `Send`, `parsingContent`,
  `UpsertRule`, `InitRuleState`, `AddHideText`, `AlarmIfHitRule`),
* `pkg/common/model/logging.go` (`Logging`, `Level.String`, `Logging.Key`,
  `LoggingCollectionName`).

Conventions.

* Go `int32`/`int64` values are `Int`; every arithmetic operation that can wrap in Go
  is followed by `wrapInt32`/`wrapInt64`.
* Go strings are `String`; substring questions are asked on the list of characters.
  This is exact for valid UTF-8 text.
* A nil pointer is `none`; a nil dereference (a Go runtime panic) makes the enclosing
  function return `none`.
* Dates and clocks of `time.Unix(t, 0)` follow package `time`: the absolute time is an
  unsigned 64-bit count of seconds and wraps around outside the range of the package.
* Everything the code reads from its environment is an explicit input: the two
  readings of `time.Now().Unix()` in `Send`, the error returned by the notifier, the
  process-wide local time zone and the machine address.
* The atomics of `RuleState` are modelled sequentially: one `Send` runs at a time.
-/

namespace Qelog

/-! ## Machine integers -/

/-- Two's complement wrap-around of a Go `int32` result. -/
def wrapInt32 (x : Int) : Int := (x + 2147483648) % 4294967296 - 2147483648

/-- Two's complement wrap-around of a Go `int64` result. -/
def wrapInt64 (x : Int) : Int :=
  (x + 9223372036854775808) % 18446744073709551616 - 9223372036854775808

/-- The values of a Go `int64`. -/
def InInt64 (x : Int) : Prop := -9223372036854775808 ≤ x ∧ x < 9223372036854775808

instance (x : Int) : Decidable (InInt64 x) := by unfold InInt64; infer_instance

/-! ## Go maps with string keys

A Go `map[string]V` is an association list with pairwise distinct keys. `range` visits
the entries in an unspecified order; the order of the list stands for the order of one
particular run. -/

/-- Association-list stand-in for `map[string]V`. -/
abbrev GoMap (β : Type) := List (String × β)

/-- Lookup `m[k]` with the comma-ok result as an `Option`. -/
def GoMap.get {β : Type} : GoMap β → String → Option β
  | [], _ => none
  | (k1, v1) :: m, k => if k1 = k then some v1 else GoMap.get m k

/-- Assignment `m[k] = v`: replaces the entry of `k` or adds one. -/
def GoMap.set {β : Type} : GoMap β → String → β → GoMap β
  | [], k, v => [(k, v)]
  | (k1, v1) :: m, k, v => if k1 = k then (k, v) :: m else (k1, v1) :: GoMap.set m k v

/-- The keys of a map, in list order. -/
def GoMap.keys {β : Type} (m : GoMap β) : List String := m.map Prod.fst

/-! ## `fmt` and `strings` -/

/-- Verb `%d` of `fmt.Sprintf` on a signed integer. -/
def fmtD (x : Int) : String := toString x

/-- Decimal digits of a natural number, left-padded with `0` to `width` characters
(the digit part of `%02d`, and of `appendInt` in package `time`). -/
def padDigits (width : Nat) (n : Nat) : String :=
  let d := toString n
  String.mk (List.replicate (width - d.length) '0') ++ d

/-- Verb `%02d` of `fmt.Sprintf` on a non-negative integer, and `appendInt(b, x, width)`
of package `time` on any integer: a minus sign, then the zero-padded digits. -/
def appendInt (x : Int) (width : Nat) : String :=
  if x < 0 then "-" ++ padDigits width (-x).toNat else padDigits width x.toNat

/-- Scan of `strings.Replace` for a non-empty `old`: `skip` counts the characters of a
match that are still to be dropped; with `skip = 0` the leftmost match at the current
position is replaced by `new`, any other character is copied. -/
def replaceScan (old new : List Char) : Nat → List Char → List Char
  | _, [] => []
  | 0, c :: cs =>
      if old.isPrefixOf (c :: cs) then new ++ replaceScan old new (old.length - 1) cs
      else c :: replaceScan old new 0 cs
  | n + 1, _ :: cs => replaceScan old new n cs

/-- Function `strings.ReplaceAll(s, old, new)`: returns `s` when `old == new`; an empty
`old` matches before every character and at the end; otherwise every non-overlapping
match, leftmost first, is replaced. -/
def strings.ReplaceAll (s old new : String) : String :=
  if old = new then s
  else if old.data = [] then String.mk (new.data ++ s.data.flatMap (fun c => c :: new.data))
  else String.mk (replaceScan old.data new.data 0 s.data)

/-- Substring test `strings.Contains(s, sub)`. -/
def Contains (s sub : String) : Prop := sub.data <:+: s.data

instance (s sub : String) : Decidable (Contains s sub) := by unfold Contains; infer_instance

/-! ## Package `time`: civil date of a Unix time in a zone -/

/-- Function `isLeap` of package `time`. -/
def isLeap (year : Int) : Bool :=
  year % 4 = 0 && (year % 100 != 0 || year % 400 = 0)

/-- Table `daysBefore` of package `time`: the days of a non-leap year before month
`m + 1` (index 0 is January). -/
def daysBefore (m : Int) : Int :=
  if m = 0 then 0 else if m = 1 then 31 else if m = 2 then 59 else if m = 3 then 90
  else if m = 4 then 120 else if m = 5 then 151 else if m = 6 then 181
  else if m = 7 then 212 else if m = 8 then 243 else if m = 9 then 273
  else if m = 10 then 304 else if m = 11 then 334 else 365

/-- Constant `absoluteZeroYear` of package `time`: the year the absolute time of the
package counts from. -/
def absoluteZeroYear : Int := -292277022399

/-- Constant `unixToInternal + internalToAbsolute` of package `time`: the seconds from the
first day of `absoluteZeroYear` to 1970-01-01. -/
def unixToAbsolute : Int := 9223372028715321600

/-- A time zone (`*time.Location`): the offset east of UTC, in seconds, in force at a
Unix time. -/
abbrev Location := Int → Int

/-- Zone `time.UTC`. -/
def UTC : Location := fun _ => 0

/-- Method `Time.abs` on `time.Unix(unix, 0).In(loc)`: the local time as seconds from the
first day of `absoluteZeroYear`, in an unsigned 64-bit word, so reduced modulo `2^64`. -/
def timeAbs (loc : Location) (unix : Int) : Int :=
  (unix + loc unix + unixToAbsolute) % 18446744073709551616

/-- First half of `absDate` of package `time`: `(year, yday)` of the day number `d`
counted from the first day of `absoluteZeroYear`, by cutting off 400-year, 100-year,
4-year and 1-year cycles. -/
def yearDay (d : Int) : Int × Int :=
  let n400 := d / 146097
  let d1 := d % 146097
  let n100a := d1 / 36524
  let n100 := n100a - n100a / 4
  let d2 := d1 - 36524 * n100
  let n4 := d2 / 1461
  let d3 := d2 - 1461 * n4
  let n1a := d3 / 365
  let n1 := n1a - n1a / 4
  (400 * n400 + 100 * n100 + 4 * n4 + n1 + absoluteZeroYear, d3 - 365 * n1)

/-- Second half of `absDate`: `(month, day)` from the day of the year, January being
month 1. -/
def monthDay (leap : Bool) (yday : Int) : Int × Int :=
  if leap ∧ yday = 59 then (2, 29)
  else
    let day := if leap ∧ yday > 59 then yday - 1 else yday
    let month := day / 31
    let e := daysBefore (month + 1)
    if day ≥ e then (month + 2, day - e + 1) else (month + 1, day - daysBefore month + 1)

/-- Function `absDate` of package `time`: `(year, month, day)` of an absolute time in
seconds. -/
def absDate (abs : Int) : Int × Int × Int :=
  let yd := yearDay (abs / 86400)
  let md := monthDay (isLeap yd.1) yd.2
  (yd.1, md.1, md.2)

/-- Method `time.Unix(unix, 0).In(loc).Date()`: `(year, month, day)`. -/
def timeDate (loc : Location) (unix : Int) : Int × Int × Int :=
  absDate (timeAbs loc unix)

/-- Method `time.Unix(unix, 0).In(loc).Clock()`: `(hour, minute, second)`, by `absClock`
on the absolute time. -/
def timeClock (loc : Location) (unix : Int) : Int × Int × Int :=
  let s := timeAbs loc unix % 86400
  (s / 3600, s % 3600 / 60, s % 60)

/-- Method `time.Unix(unix, 0).In(loc).Format("2006-01-02 15:04:05")`. -/
def formatDateTime (loc : Location) (unix : Int) : String :=
  let ymd := timeDate loc unix
  let hms := timeClock loc unix
  appendInt ymd.1 4 ++ "-" ++ appendInt ymd.2.1 2 ++ "-" ++ appendInt ymd.2.2 2 ++ " " ++
    appendInt hms.1 2 ++ ":" ++ appendInt hms.2.1 2 ++ ":" ++ appendInt hms.2.2 2

/-! ## Package `model` -/

/-- Method `Level.String` (`type Level int32`). -/
def Level.String (lvl : Int) : String :=
  if lvl = -1 then "DEBUG"
  else if lvl = 0 then "INFO"
  else if lvl = 1 then "WARN"
  else if lvl = 2 then "ERROR"
  else if lvl = 3 then "DPANIC"
  else if lvl = 4 then "PANIC"
  else if lvl = 5 then "FATAL"
  else "UNKNOWN"

/-- Struct `model.Logging`; the `ObjectID` is kept as its hexadecimal text. -/
structure Logging where
  ID : String
  Module : String
  IP : String
  Level : Int
  Short : String
  Full : String
  Condition1 : String
  Condition2 : String
  Condition3 : String
  TraceID : String
  TimeMill : Int
  TimeSec : Int
  MessageID : String
  Size : Int
  deriving DecidableEq, Repr

/-- Method `Logging.Key`: `fmt.Sprintf("%s_%s_%s", l.Module, l.Short, l.Level.String())`. -/
def Logging.Key (l : Logging) : String :=
  l.Module ++ "_" ++ l.Short ++ "_" ++ Level.String l.Level

/-- Function `LoggingCollectionName(dbIndex, unix)`. The source calls
`time.Unix(unix, 0).Date()`, whose zone is the process-wide `time.Local`; that zone is
the parameter `loc`. -/
def LoggingCollectionName (loc : Location) (dbIndex : Int) (unix : Int) : String :=
  let ymd := timeDate loc unix
  "logging_" ++ fmtD dbIndex ++ "_" ++ fmtD ymd.1 ++ appendInt ymd.2.1 2

/-- Modelled from the spec: the declaration of `model.HookURL` is not among the sources;
the fields are the ones `alarm.go` reads (`ID.Hex()`, `URL`, `KeyWord`, `HideText`).
The `ObjectID` is kept as its hexadecimal text. -/
structure HookURL where
  ID : String
  URL : String
  KeyWord : String
  HideText : List String
  deriving DecidableEq, Repr

/-- Modelled from the spec: the declaration of `model.AlarmRule` is not among the
sources; the fields are the ones `alarm.go` reads and the ones of the spec's data model.
`RateSec` is an `int64` (it is compared with a difference of `int64`s), `Method` is an
enumeration value and `UpdatedAt` is the instant of the `time.Time`, which is all that
`Time.Equal` compares. -/
structure AlarmRule where
  Enable : Bool
  ModuleName : String
  Short : String
  Level : Int
  Tag : String
  RateSec : Int
  Method : Int
  HookID : String
  UpdatedAt : Int
  deriving DecidableEq, Repr

/-- Modelled from the spec: method `AlarmRule.Key` is not among the sources; the spec
gives the derived key as `module_short_level`, the same shape as `Logging.Key`. -/
def AlarmRule.Key (r : AlarmRule) : String :=
  r.ModuleName ++ "_" ++ r.Short ++ "_" ++ Level.String r.Level

/-- Modelled from the spec: constant `model.MethodDingDing` is not among the sources;
the spec's method enumeration has the single value "DingDing". -/
def MethodDingDing : Int := 1

/-! ## Package `alert` -/

/-- Modelled from the spec: the notifier capability `alert.Alarm` (send, method name,
set endpoint) with its one implementation `DingDing`; what `Send` returns is decided by
the remote end and is an input of `RuleState.Send`. -/
structure Notifier where
  hookURL : String
  deriving DecidableEq, Repr

/-- Constructor `alert.NewDingDing()`. -/
def NewDingDing : Notifier := { hookURL := "" }

/-- Method `SetHookURL`. -/
def Notifier.SetHookURL (_n : Notifier) (url : String) : Notifier := { hookURL := url }

/-! ## Package `alarm` -/

/-- Variable `ContentPrefix`. -/
def ContentPrefix : String := "[QELOG]"

/-- Process-wide environment of package `alarm`: `machineIP` (from
`kit.GetLocalIPV4()`) and the zone `time.Local`. -/
structure Process where
  machineIP : String
  localZone : Location

/-- Struct `RuleState`. -/
structure RuleState where
  key : String
  hook : Option HookURL
  rule : Option AlarmRule
  count : Int
  latestSendTime : Int
  method : Option Notifier
  deriving DecidableEq, Repr

/-- Value of `new(RuleState)`: every field zero. -/
def RuleState.new : RuleState :=
  { key := "", hook := none, rule := none, count := 0, latestSendTime := 0, method := none }

/-- Method `RuleState.KeyWord`. -/
def RuleState.KeyWord (rs : RuleState) : String :=
  match rs.hook with
  | some h => if h.KeyWord ≠ "" then h.KeyWord else ContentPrefix
  | none => ContentPrefix

/-- The `fmt.Sprintf` of `parsingContent`, before redaction. -/
def RuleState.template (p : Process) (rs : RuleState) (r : AlarmRule) (v : Logging) : String :=
  rs.KeyWord ++ "\n标签: " ++ r.Tag ++ "\nIP: " ++ v.IP ++
    "\n时间: " ++ formatDateTime p.localZone v.TimeSec ++
    "\n等级: " ++ Level.String v.Level ++
    "\n短消息: " ++ v.Short ++ "\n详情: " ++ v.Full ++
    "\n频次: " ++ fmtD rs.count ++ "/" ++ fmtD r.RateSec ++ "s" ++
    "\n报警节点: " ++ p.machineIP

/-- The redaction loop of `parsingContent`: one `strings.ReplaceAll` per hide text, in
list order. -/
def hideAll (hides : List String) (str : String) : String :=
  hides.foldl (fun acc hide => strings.ReplaceAll acc hide "****") str

/-- The `if rs.hook != nil` block of `parsingContent`. -/
def RuleState.redact (rs : RuleState) (str : String) : String :=
  match rs.hook with
  | some h => hideAll h.HideText str
  | none => str

/-- Method `RuleState.parsingContent`; `none` when `rs.rule` is nil. -/
def RuleState.parsingContent (p : Process) (rs : RuleState) (v : Logging) : Option String :=
  match rs.rule with
  | none => none
  | some r => some (rs.redact (rs.template p r v))

/-- Method `RuleState.UpsertRule`. -/
def RuleState.UpsertRule (rs : RuleState) (new : AlarmRule) (hook : Option HookURL) : RuleState :=
  if rs.rule = none ∨ ¬ (rs.rule.map AlarmRule.UpdatedAt = some new.UpdatedAt) then
    { key := new.Key
      hook := hook
      rule := some new
      count := rs.count
      latestSendTime := 0
      method :=
        if new.Method = MethodDingDing then
          some (match hook with
            | some h => NewDingDing.SetHookURL h.URL
            | none => NewDingDing)
        else rs.method }
  else rs

/-- What one call of `RuleState.Send` reads from outside the state. -/
structure SendEnv where
  /-- Value of `time.Now().Unix()` in the gate (read when `latestSendTime != 0`). -/
  nowGate : Int
  /-- Value of `time.Now().Unix()` after a successful send (read when `RateSec > 0`). -/
  nowStore : Int
  /-- Whether `rs.method.Send` returns a non-nil error. -/
  sendFails : Bool
  deriving DecidableEq, Repr

/-- Effect of one call of `RuleState.Send`: the state afterwards and the contents
handed to the notifier, in order. -/
structure SendResult where
  state : RuleState
  sent : List String
  deriving DecidableEq, Repr

/-- The gate of `Send`: the value of `isSend`; `none` when the rule is needed and nil. -/
def RuleState.isSend (rs : RuleState) (e : SendEnv) : Option Bool :=
  if rs.latestSendTime = 0 then some true
  else
    match rs.rule with
    | none => none
    | some r => some (decide (wrapInt64 (e.nowGate - rs.latestSendTime) > r.RateSec))

/-- Method `RuleState.Send`; `v = none` is the nil record. -/
def RuleState.Send (p : Process) (rs : RuleState) (e : SendEnv) (v : Option Logging) :
    Option SendResult :=
  match v with
  | none => some { state := rs, sent := [] }
  | some v =>
    let rs1 := { rs with count := wrapInt32 (rs.count + 1) }
    match rs1.isSend e with
    | none => none
    | some false =>
        some { state := { rs1 with count := wrapInt32 (rs1.count + 1) }, sent := [] }
    | some true =>
      match rs1.parsingContent p v, rs1.method, rs1.rule with
      | some content, some _, some r =>
        if e.sendFails then some { state := rs1, sent := [content] }
        else
          some { state := { rs1 with
                            count := 0
                            latestSendTime := if r.RateSec > 0 then e.nowStore else 0 }
                 sent := [content] }
      | _, _, _ => none

/-- Struct `Alarm`: the rule registry. -/
structure Alarm where
  ruleState : GoMap RuleState
  hooks : GoMap HookURL
  modules : GoMap Bool
  hideTexts : List String
  deriving DecidableEq, Repr

/-- Constructor `NewAlarm`. -/
def NewAlarm : Alarm := { ruleState := [], hooks := [], modules := [], hideTexts := [] }

/-- Method `Alarm.AddHideText`: appends the non-empty strings. -/
def Alarm.AddHideText (a : Alarm) (txt : List String) : Alarm :=
  { a with hideTexts := txt.foldl (fun acc v => if v ≠ "" then acc ++ [v] else acc) a.hideTexts }

/-- Method `Alarm.ModuleIsEnable`. -/
def Alarm.ModuleIsEnable (a : Alarm) (name : String) : Bool :=
  match a.modules.get name with
  | some enable => enable
  | none => false

/-- First loop of `InitRuleState`: the map of hooks by `ID.Hex()`. -/
def buildHooksMap (hooks : List HookURL) : GoMap HookURL :=
  hooks.foldl (fun m v => m.set v.ID v) []

/-- Second loop of `InitRuleState`: a fresh state per rule, a later rule with the same
key replacing an earlier one. -/
def buildRuleState (hooksMap : GoMap HookURL) (rules : List AlarmRule) : GoMap RuleState :=
  rules.foldl
    (fun m rule => m.set rule.Key (RuleState.new.UpsertRule rule (hooksMap.get rule.HookID))) []

/-- Second loop of `InitRuleState`: the enabled modules. -/
def buildModules (rules : List AlarmRule) : GoMap Bool :=
  rules.foldl (fun m rule => m.set rule.ModuleName true) []

/-- Body of the third loop of `InitRuleState` for one old state: when the fresh map has
the key of the old state, the old state is upserted with the fresh rule and hook and
takes the place of the fresh state. `none` when the state found has a nil rule. -/
def carryForward (ruleState : GoMap RuleState) (state : RuleState) : Option (GoMap RuleState) :=
  match ruleState.get state.key with
  | some v =>
    match v.rule with
    | some r => some (ruleState.set state.key (state.UpsertRule r v.hook))
    | none => none
  | none => some ruleState

/-- Third loop of `InitRuleState`, over the old states in the order of `old`. -/
def carryAll : List (String × RuleState) → GoMap RuleState → Option (GoMap RuleState)
  | [], ruleState => some ruleState
  | (_, state) :: old, ruleState =>
    match carryForward ruleState state with
    | some m => carryAll old m
    | none => none

/-- Method `Alarm.InitRuleState`; `none` when a nil rule is dereferenced. -/
def Alarm.InitRuleState (a : Alarm) (rules : List AlarmRule) (hooks : List HookURL) :
    Option Alarm :=
  let hooksMap := buildHooksMap hooks
  match carryAll a.ruleState (buildRuleState hooksMap rules) with
  | some ruleState =>
    some { a with ruleState := ruleState, modules := buildModules rules, hooks := hooksMap }
  | none => none

/-- Method `Alarm.AlarmIfHitRule`: every record whose key has a state is sent to that
state, which is updated in place; `envs` gives what each `Send` reads from outside, one
entry per record (a missing entry reads zeros and a notifier that succeeds). -/
def Alarm.AlarmIfHitRule (p : Process) (a : Alarm) :
    List Logging → List SendEnv → Option (Alarm × List String)
  | [], _ => some (a, [])
  | v :: docs, envs =>
    let e := envs.headD { nowGate := 0, nowStore := 0, sendFails := false }
    match a.ruleState.get v.Key with
    | some state =>
      match state.Send p e (some v) with
      | some r =>
        match Alarm.AlarmIfHitRule p { a with ruleState := a.ruleState.set v.Key r.state }
            docs envs.tail with
        | some (a2, sent) => some (a2, r.sent ++ sent)
        | none => none
      | none => none
    | none => Alarm.AlarmIfHitRule p a docs envs.tail

/-- A sequence of `Send` calls on one state (no reload in between): the state after the
last call and the result of every call, in order. -/
def sendAll (p : Process) : RuleState → List (SendEnv × Option Logging) →
    Option (RuleState × List SendResult)
  | rs, [] => some (rs, [])
  | rs, (e, v) :: calls =>
    match rs.Send p e v with
    | none => none
    | some r =>
      match sendAll p r.state calls with
      | none => none
      | some (rs2, rest) => some (rs2, r :: rest)

/-- A call that handed a content to the notifier and got no error back. -/
def SendResult.emittedOk (r : SendResult) (e : SendEnv) : Bool :=
  r.sent.length = 1 && !e.sendFails

/-- The clock readings of the successful emissions of a run, in order: the inputs of the
calls whose result is `emittedOk`. -/
def okEmissions (calls : List (SendEnv × Option Logging)) (results : List SendResult) :
    List SendEnv :=
  ((calls.zip results).filter (fun cr => cr.2.emittedOk cr.1.1)).map (fun cr => cr.1.1)

/-- All clock readings of a run in the order they are taken: gate, then store, call
after call. -/
def clockReadings (calls : List (SendEnv × Option Logging)) : List Int :=
  calls.flatMap (fun c => [c.1.nowGate, c.1.nowStore])

/-- What the registry guarantees about the state stored under the key `k`: its `key`
field is `k` and it has a rule whose key is `k`. -/
def KeyedBy (k : String) (st : RuleState) : Prop :=
  st.key = k ∧ ∃ r, st.rule = some r ∧ r.Key = k

/-- Registries the code can build: keys are pairwise distinct (a Go map) and every state
is stored under its own key and the key of its rule. -/
def Alarm.WellFormed (a : Alarm) : Prop :=
  a.ruleState.keys.Nodup ∧ ∀ kv ∈ a.ruleState, KeyedBy kv.1 kv.2

/-- The state after a `Send` that found the gate closed. -/
def RuleState.afterSkip (rs : RuleState) : RuleState :=
  { rs with count := wrapInt32 (wrapInt32 (rs.count + 1) + 1) }

/-- The state after a `Send` whose notifier call failed. -/
def RuleState.afterFailure (rs : RuleState) : RuleState :=
  { rs with count := wrapInt32 (rs.count + 1) }

/-- The state after a `Send` whose notifier call succeeded. -/
def RuleState.afterSuccess (rs : RuleState) (r : AlarmRule) (e : SendEnv) : RuleState :=
  { rs with count := 0, latestSendTime := if r.RateSec > 0 then e.nowStore else 0 }

/-- The gate of `Send` as a proposition, with the `int64` subtraction of the code. -/
def RuleState.gateOpen (rs : RuleState) (r : AlarmRule) (e : SendEnv) : Prop :=
  rs.latestSendTime = 0 ∨ wrapInt64 (e.nowGate - rs.latestSendTime) > r.RateSec

instance (rs : RuleState) (r : AlarmRule) (e : SendEnv) : Decidable (rs.gateOpen r e) := by
  unfold RuleState.gateOpen; infer_instance

/-- A hide text the redaction can handle: not empty and without `*`. -/
def Redactable (h : String) : Prop := h.data ≠ [] ∧ '*' ∉ h.data

instance (h : String) : Decidable (Redactable h) := by unfold Redactable; infer_instance

/-! ## Concrete inputs used by the witnesses and counterexamples -/

/-- Process environment of the examples: UTC as local zone. -/
def exProcess : Process := { machineIP := "10.0.0.1", localZone := UTC }

/-- A rule on `(svc, oom, ERROR)` with a rate of 60 seconds. -/
def exRule : AlarmRule :=
  { Enable := true, ModuleName := "svc", Short := "oom", Level := 2, Tag := "t",
    RateSec := 60, Method := MethodDingDing, HookID := "h1", UpdatedAt := 5 }

/-- A record matching `exRule`. -/
def exRecord : Logging :=
  { ID := "", Module := "svc", IP := "1.2.3.4", Level := 2, Short := "oom",
    Full := "out of memory", Condition1 := "", Condition2 := "", Condition3 := "",
    TraceID := "", TimeMill := 1700000000000, TimeSec := 1700000000, MessageID := "",
    Size := 0 }

/-- A cooling state of `exRule`: three records counted, last send at 100. -/
def exCooling : RuleState :=
  { key := "svc_oom_ERROR", hook := none, rule := some exRule, count := 3,
    latestSendTime := 100, method := some NewDingDing }

/-- The rule `exRule` with a rate of 0: every record is to be sent. -/
def exRuleAlways : AlarmRule := { exRule with RateSec := 0 }

/-- Three calls with a non-nil record; the notifier fails on the second. -/
def exCalls : List (SendEnv × Option Logging) :=
  [({ nowGate := 5, nowStore := 5, sendFails := false }, some exRecord),
   ({ nowGate := 5, nowStore := 5, sendFails := true }, some exRecord),
   ({ nowGate := 6, nowStore := 7, sendFails := false }, some exRecord)]

/-- A registry holding the cooling state of `exRule`. -/
def exAlarm : Alarm :=
  { ruleState := [("svc_oom_ERROR", exCooling)], hooks := [], modules := [("svc", true)],
    hideTexts := [] }

/-- An unrelated rule, on `(pay, timeout, WARN)`. -/
def exOtherRule : AlarmRule :=
  { Enable := true, ModuleName := "pay", Short := "timeout", Level := 1, Tag := "p",
    RateSec := 10, Method := MethodDingDing, HookID := "h2", UpdatedAt := 9 }

/-- The rule `exRule` after an edit: new rate, later `UpdatedAt`. -/
def exRuleEdited : AlarmRule := { exRule with RateSec := 30, UpdatedAt := 6 }

/-- A hook whose hide list is the single text `*`. -/
def exStarHook : HookURL :=
  { ID := "h1", URL := "http://hook.example/send", KeyWord := "", HideText := ["*"] }

/-- A hook that hides two ordinary words. -/
def exHook : HookURL :=
  { ID := "h1", URL := "http://hook.example/send", KeyWord := "[OPS]",
    HideText := ["memory", "1.2.3.4"] }

/-- A record matching `exRule` whose detail holds the word `secret` and a `*`. -/
def exSecretRecord : Logging := { exRecord with Full := "secret a*b" }

/-- A fresh state of `exRule` bound to `exHook`. -/
def exHooked : RuleState := RuleState.new.UpsertRule exRule (some exHook)

/-! ## The Gregorian calendar, as a specification of `absDate` -/

/-- Leap years of the proleptic Gregorian calendar. -/
def isLeapYear (y : Int) : Prop := y % 4 = 0 ∧ (y % 100 ≠ 0 ∨ y % 400 = 0)

instance (y : Int) : Decidable (isLeapYear y) := by unfold isLeapYear; infer_instance

/-- Day number (from 1970-01-01) of January 1st of year `y`: 365 days per year plus one
per leap year in between. -/
def yearStart (y : Int) : Int :=
  365 * (y - 1970) + ((y - 1) / 4 - (y - 1) / 100 + (y - 1) / 400) - 477

/-- Days of year `y` before the first of month `m`: the lengths 31, 28 or 29, 31, 30,
31, 30, 31, 31, 30, 31, 30, 31 added up (`m = 13` gives the length of the year). -/
def daysBeforeMonth (y m : Int) : Int :=
  (if m = 1 then 0 else if m = 2 then 31 else if m = 3 then 59 else if m = 4 then 90
   else if m = 5 then 120 else if m = 6 then 151 else if m = 7 then 181
   else if m = 8 then 212 else if m = 9 then 243 else if m = 10 then 273
   else if m = 11 then 304 else if m = 12 then 334 else 365)
  + (if 2 < m ∧ isLeapYear y then 1 else 0)

/-- Day number (from 1970-01-01) of the first day of month `m` of year `y`. -/
def monthStart (y m : Int) : Int := yearStart y + daysBeforeMonth y m

/-- The Unix times whose local time the package represents without wrap-around: the
absolute time `unix + offset + unixToAbsolute` fits the unsigned 64-bit word. Every
`int64` Unix time from year -292277022399 on is in range. -/
def timeInRange (loc : Location) (unix : Int) : Prop :=
  -9223372028715321600 ≤ unix + loc unix ∧ unix + loc unix < 9223372044994230016

instance (loc : Location) (unix : Int) : Decidable (timeInRange loc unix) := by
  unfold timeInRange; infer_instance

/-- A zone eight hours east of UTC all year (such as Asia/Shanghai). -/
def exZoneEast8 : Location := fun _ => 28800

/-- A hook with its own keyword and nothing to hide. -/
def exQuietHook : HookURL :=
  { ID := "h1", URL := "http://hook.example/send", KeyWord := "[OPS]", HideText := [] }

/-- The cooling state of `exRule` bound to `exQuietHook`. -/
def exQuiet : RuleState := { exCooling with hook := some exQuietHook }

/-- A record of module `a_b` with short message `c`. -/
def exUnderscoreRecord : Logging := { exRecord with Module := "a_b", Short := "c" }

/-- A record of module `a` with short message `b_c`. -/
def exOtherUnderscoreRecord : Logging := { exRecord with Module := "a", Short := "b_c" }

/-- A rule on module `a` with short message `b_c`, level ERROR. -/
def exUnderscoreRule : AlarmRule := { exRule with ModuleName := "a", Short := "b_c" }

/-- The rule that the second loop of `InitRuleState` leaves registered under the key
`k`: the last rule of `rules` with that key, if any. -/
def lastWithKey (rules : List AlarmRule) (k : String) : Option AlarmRule :=
  rules.foldl (fun acc r => if r.Key = k then some r else acc) none

/-- A rule on `(a_b, c, ERROR)`; its key is `a_b_c_ERROR`. -/
def exRuleAB : AlarmRule := { exRule with ModuleName := "a_b", Short := "c" }

/-- A rule on `(a, b_c, ERROR)` with a later `UpdatedAt`; its key is `a_b_c_ERROR` too. -/
def exRuleABC : AlarmRule := { exRule with ModuleName := "a", Short := "b_c", UpdatedAt := 7 }

/-- A registry holding a cooling state of `exRuleAB`. -/
def exAlarmAB : Alarm :=
  { ruleState := [("a_b_c_ERROR", { exCooling with key := "a_b_c_ERROR", rule := some exRuleAB })],
    hooks := [], modules := [("a_b", true)], hideTexts := [] }

/-! # Theorems -/

/-! ## Helper lemmas: one `Send` -/

theorem wrapInt64_of_InInt64 (x : Int) (h : InInt64 x) : wrapInt64 x = x := by
  unfold InInt64 at h
  unfold wrapInt64
  omega

theorem Send_eq (p : Process) (rs : RuleState) (r : AlarmRule) (n : Notifier) (e : SendEnv)
    (v : Logging) (hrule : rs.rule = some r) (hmeth : rs.method = some n) :
    rs.Send p e (some v) = some (
      if rs.gateOpen r e then
        { state := if e.sendFails then rs.afterFailure else rs.afterSuccess r e
          sent := [rs.afterFailure.redact (rs.afterFailure.template p r v)] }
      else { state := rs.afterSkip, sent := [] }) := by
  by_cases h0 : rs.latestSendTime = 0
  · cases hf : e.sendFails <;>
      simp [RuleState.Send, RuleState.isSend, RuleState.parsingContent, RuleState.gateOpen,
        RuleState.afterFailure, RuleState.afterSuccess, hrule, hmeth, h0, hf]
  · by_cases hg : wrapInt64 (e.nowGate - rs.latestSendTime) > r.RateSec
    · cases hf : e.sendFails <;>
        simp [RuleState.Send, RuleState.isSend, RuleState.parsingContent, RuleState.gateOpen,
          RuleState.afterFailure, RuleState.afterSuccess, hrule, hmeth, h0, hf, hg]
    · simp [RuleState.Send, RuleState.isSend, RuleState.gateOpen,
          RuleState.afterSkip, hrule, h0, hg]

theorem Send_emits_inv (p : Process) (rs : RuleState) (e : SendEnv) (v : Logging)
    (res : SendResult) (h : rs.Send p e (some v) = some res) (hemit : res.sent ≠ []) :
    ∃ r n, rs.rule = some r ∧ rs.method = some n ∧ rs.gateOpen r e := by
  cases hr : rs.rule with
  | none =>
    exfalso
    by_cases h0 : rs.latestSendTime = 0
    · simp [RuleState.Send, RuleState.isSend, RuleState.parsingContent, hr, h0] at h
    · simp [RuleState.Send, RuleState.isSend, hr, h0] at h
  | some r =>
    cases hm : rs.method with
    | none =>
      exfalso
      by_cases h0 : rs.latestSendTime = 0
      · simp [RuleState.Send, RuleState.isSend, RuleState.parsingContent, hr, hm, h0] at h
      · by_cases hg : wrapInt64 (e.nowGate - rs.latestSendTime) > r.RateSec
        · simp [RuleState.Send, RuleState.isSend, RuleState.parsingContent, hr, hm, h0, hg] at h
        · simp [RuleState.Send, RuleState.isSend, hr, h0, hg] at h
          subst h
          exact hemit rfl
    | some n =>
      refine ⟨r, n, rfl, rfl, ?_⟩
      by_contra hg
      rw [Send_eq p rs r n e v hr hm, if_neg hg] at h
      simp at h
      subst h
      exact hemit rfl

/-- C1: for a state with a rule and a notifier and a non-nil record, when the `int64`
difference `now - latestSendTime` does not overflow, `Send` hands exactly one content to
the notifier if `latestSendTime == 0` or `now - latestSendTime > rule.RateSec`, and none
otherwise. -/
theorem Send_calls_notifier_iff_gate (p : Process) (rs : RuleState) (r : AlarmRule)
    (n : Notifier) (e : SendEnv) (v : Logging)
    (hrule : rs.rule = some r) (hmeth : rs.method = some n)
    (hdiff : InInt64 (e.nowGate - rs.latestSendTime)) :
    ∃ res, rs.Send p e (some v) = some res ∧
      res.sent.length =
        if rs.latestSendTime = 0 ∨ e.nowGate - rs.latestSendTime > r.RateSec then 1 else 0 := by
  rw [Send_eq p rs r n e v hrule hmeth]
  refine ⟨_, rfl, ?_⟩
  unfold RuleState.gateOpen
  simp only [wrapInt64_of_InInt64 _ hdiff]
  split <;> rfl

/-- Witness of C1: a cooling state (last send at 100, rate 60) read at 161 calls the
notifier once. -/
theorem Send_calls_notifier_iff_gate_witness :
    ∃ res, exCooling.Send exProcess { nowGate := 161, nowStore := 161, sendFails := false }
        (some exRecord) = some res ∧
      res.sent.length = if (100 : Int) = 0 ∨ (161 : Int) - 100 > 60 then 1 else 0 :=
  Send_calls_notifier_iff_gate exProcess exCooling exRule NewDingDing
    { nowGate := 161, nowStore := 161, sendFails := false } exRecord rfl rfl (by decide)

/-- C4: a `Send` with a non-nil record that passes the gate, so hands a content to the
notifier, and whose notifier call succeeds returns with `count == 0` and with
`latestSendTime == now` when `RateSec > 0`, `latestSendTime == 0` when `RateSec <= 0`;
`now` is the clock reading taken after the notifier returned. -/
theorem Send_success_resets (p : Process) (rs : RuleState) (r : AlarmRule) (n : Notifier)
    (e : SendEnv) (v : Logging) (hrule : rs.rule = some r) (hmeth : rs.method = some n)
    (hgate : rs.gateOpen r e) (hok : e.sendFails = false) :
    ∃ res, rs.Send p e (some v) = some res ∧ res.sent.length = 1 ∧
      res.state.count = 0 ∧
      (0 < r.RateSec → res.state.latestSendTime = e.nowStore) ∧
      (r.RateSec ≤ 0 → res.state.latestSendTime = 0) := by
  rw [Send_eq p rs r n e v hrule hmeth, if_pos hgate, hok]
  refine ⟨_, rfl, rfl, rfl, ?_, ?_⟩
  · intro hpos
    simp [RuleState.afterSuccess, hpos]
  · intro hle
    have : ¬ (r.RateSec > 0) := by omega
    simp [RuleState.afterSuccess, this]

/-- Witness of C4: the cooling example sends at 161, the notifier succeeds and the clock
reads 162 afterwards. -/
theorem Send_success_resets_witness :
    ∃ res, exCooling.Send exProcess { nowGate := 161, nowStore := 162, sendFails := false }
        (some exRecord) = some res ∧ res.sent.length = 1 ∧
      res.state.count = 0 ∧
      (0 < exRule.RateSec → res.state.latestSendTime = 162) ∧
      (exRule.RateSec ≤ 0 → res.state.latestSendTime = 0) :=
  Send_success_resets exProcess exCooling exRule NewDingDing
    { nowGate := 161, nowStore := 162, sendFails := false } exRecord rfl rfl
    (by decide) rfl

/-- C5 (evaluation at the failing input): a `Send` that finds the gate closed (last
send at 100, rate 60, clock 120) takes `count` from 3 to 5, not to 4; a `Send` whose
notifier call fails takes it from 3 to 4. -/
theorem Send_gate_closed_counts_twice :
    (exCooling.Send exProcess { nowGate := 120, nowStore := 120, sendFails := false }
        (some exRecord)).map (fun res => (res.state.count, res.sent)) = some (5, []) ∧
    (exCooling.Send exProcess { nowGate := 161, nowStore := 161, sendFails := true }
        (some exRecord)).map (fun res => (res.state.count, res.sent.length)) = some (4, 1) := by
  constructor
  · rw [Send_eq exProcess exCooling exRule NewDingDing _ _ rfl rfl]
    decide
  · rw [Send_eq exProcess exCooling exRule NewDingDing _ _ rfl rfl]
    decide

/-- C6: a `Send` with a non-nil record that passes the gate, so hands a content to the
notifier, and whose notifier call fails returns normally (the failure is not passed
on), leaves `latestSendTime` unchanged and `count` at the incremented value that was
rendered into the content, and a following `Send` at the same gate reading passes the
gate and hands a content to the notifier again. -/
theorem Send_failure_keeps_state (p : Process) (rs : RuleState) (r : AlarmRule)
    (n : Notifier) (e : SendEnv) (v : Logging) (hrule : rs.rule = some r)
    (hmeth : rs.method = some n) (hgate : rs.gateOpen r e) (hfail : e.sendFails = true) :
    ∃ res, rs.Send p e (some v) = some res ∧ res.sent.length = 1 ∧
      res.state.latestSendTime = rs.latestSendTime ∧
      res.state = { rs with count := wrapInt32 (rs.count + 1) } ∧
      res.sent = [res.state.redact (res.state.template p r v)] ∧
      ∀ (e2 : SendEnv) (v2 : Logging), e2.nowGate = e.nowGate →
        res.state.gateOpen r e2 ∧
        ∃ res2, res.state.Send p e2 (some v2) = some res2 ∧ res2.sent.length = 1 := by
  rw [Send_eq p rs r n e v hrule hmeth, if_pos hgate, hfail]
  refine ⟨_, rfl, rfl, rfl, rfl, rfl, ?_⟩
  intro e2 v2 he
  have hg2 : rs.afterFailure.gateOpen r e2 := by
    unfold RuleState.gateOpen at hgate ⊢
    simpa [RuleState.afterFailure, he] using hgate
  refine ⟨hg2, ?_⟩
  show ∃ res2, rs.afterFailure.Send p e2 (some v2) = some res2 ∧ res2.sent.length = 1
  rw [Send_eq p rs.afterFailure r n e2 v2 hrule hmeth, if_pos hg2]
  exact ⟨_, rfl, rfl⟩

/-- Witness of C6: the cooling example sends at 161 and the notifier fails. -/
theorem Send_failure_keeps_state_witness :
    ∃ res, exCooling.Send exProcess { nowGate := 161, nowStore := 161, sendFails := true }
        (some exRecord) = some res ∧ res.sent.length = 1 ∧
      res.state.latestSendTime = exCooling.latestSendTime ∧
      res.state = { exCooling with count := wrapInt32 (exCooling.count + 1) } ∧
      res.sent = [res.state.redact (res.state.template exProcess exRule exRecord)] ∧
      ∀ (e2 : SendEnv) (v2 : Logging), e2.nowGate = 161 →
        res.state.gateOpen exRule e2 ∧
        ∃ res2, res.state.Send exProcess e2 (some v2) = some res2 ∧ res2.sent.length = 1 :=
  Send_failure_keeps_state exProcess exCooling exRule NewDingDing
    { nowGate := 161, nowStore := 161, sendFails := true } exRecord rfl rfl (by decide) rfl

/-! ## Helper lemmas: runs of `Send` -/

theorem Send_step (p : Process) (rs : RuleState) (r : AlarmRule) (n : Notifier) (e : SendEnv)
    (v : Option Logging) (hrule : rs.rule = some r) (hmeth : rs.method = some n) :
    ∃ res, rs.Send p e v = some res ∧ res.state.rule = some r ∧ res.state.method = some n ∧
      (v ≠ none → rs.gateOpen r e → res.sent.length = 1) ∧
      ((res.emittedOk e = true ∧ rs.gateOpen r e ∧
          res.state.latestSendTime = if r.RateSec > 0 then e.nowStore else 0) ∨
       (res.emittedOk e = false ∧ res.state.latestSendTime = rs.latestSendTime)) := by
  cases v with
  | none =>
    refine ⟨{ state := rs, sent := [] }, rfl, hrule, hmeth, fun h => absurd rfl h, Or.inr ?_⟩
    exact ⟨by simp [SendResult.emittedOk], rfl⟩
  | some v =>
    rw [Send_eq p rs r n e v hrule hmeth]
    refine ⟨_, rfl, ?_⟩
    by_cases hg : rs.gateOpen r e
    · rw [if_pos hg]
      cases hf : e.sendFails
      · refine ⟨hrule, hmeth, fun _ _ => rfl, Or.inl ⟨?_, hg, rfl⟩⟩
        simp [SendResult.emittedOk, hf]
      · refine ⟨hrule, hmeth, fun _ _ => rfl, Or.inr ⟨?_, rfl⟩⟩
        simp [SendResult.emittedOk, hf]
    · rw [if_neg hg]
      refine ⟨hrule, hmeth, fun _ h => absurd h hg, Or.inr ⟨?_, rfl⟩⟩
      simp [SendResult.emittedOk]

theorem sendAll_cons (p : Process) (rs : RuleState) (e : SendEnv) (v : Option Logging)
    (calls : List (SendEnv × Option Logging)) (res : SendResult) (fin : RuleState)
    (results : List SendResult) (h1 : rs.Send p e v = some res)
    (h2 : sendAll p res.state calls = some (fin, results)) :
    sendAll p rs ((e, v) :: calls) = some (fin, res :: results) := by
  simp [sendAll, h1, h2]

theorem okEmissions_cons (e : SendEnv) (v : Option Logging)
    (calls : List (SendEnv × Option Logging)) (res : SendResult) (results : List SendResult) :
    okEmissions ((e, v) :: calls) (res :: results) =
      if res.emittedOk e = true then e :: okEmissions calls results
      else okEmissions calls results := by
  by_cases h : res.emittedOk e = true <;> simp [okEmissions, List.filter_cons, h]

theorem clockReadings_cons (e : SendEnv) (v : Option Logging)
    (calls : List (SendEnv × Option Logging)) :
    clockReadings ((e, v) :: calls) = e.nowGate :: e.nowStore :: clockReadings calls := by
  simp [clockReadings]

/-- From a cooling state whose last send `L` is positive and not after any later clock
reading, every successful emission of a run has a gate reading more than `RateSec`
after `L`. -/
theorem emissions_after_last (p : Process) (r : AlarmRule) (n : Notifier)
    (hrate : 0 < r.RateSec) :
    ∀ (calls : List (SendEnv × Option Logging)) (rs : RuleState),
      rs.rule = some r → rs.method = some n → 0 < rs.latestSendTime →
      (∀ t ∈ clockReadings calls, rs.latestSendTime ≤ t ∧ t < 9223372036854775808) →
      (clockReadings calls).Sorted (· ≤ ·) →
      ∃ fin results, sendAll p rs calls = some (fin, results) ∧
        results.length = calls.length ∧
        ∀ b ∈ okEmissions calls results,
          b.nowGate - rs.latestSendTime > r.RateSec ∧ b.nowGate ≤ b.nowStore := by
  intro calls
  induction calls with
  | nil =>
    intro rs _ _ _ _ _
    exact ⟨rs, [], rfl, rfl, by simp [okEmissions]⟩
  | cons c calls ih =>
    obtain ⟨e, v⟩ := c
    intro rs hrule hmeth hL hrng hsort
    rw [clockReadings_cons] at hrng hsort
    have hg := hrng e.nowGate (by simp)
    have hs := hrng e.nowStore (by simp)
    have hsort1 := List.sorted_cons.mp hsort
    have hsort2 := List.sorted_cons.mp hsort1.2
    have hgs : e.nowGate ≤ e.nowStore := hsort1.1 _ (by simp)
    obtain ⟨res, hsend, hr2, hm2, _, hcase⟩ := Send_step p rs r n e v hrule hmeth
    rcases hcase with ⟨hok, hgate, hlat⟩ | ⟨hno, hlat⟩
    · rw [if_pos hrate] at hlat
      have hih := ih res.state hr2 hm2 (by rw [hlat]; omega)
        (fun t ht => ⟨by rw [hlat]; exact hsort2.1 t ht, (hrng t (by simp [ht])).2⟩) hsort2.2
      obtain ⟨fin, results, hall, hlen, hem⟩ := hih
      refine ⟨fin, res :: results, sendAll_cons p rs e v calls res fin results hsend hall,
        by simp [hlen], ?_⟩
      intro b hb
      rw [okEmissions_cons, if_pos hok] at hb
      have hopen : e.nowGate - rs.latestSendTime > r.RateSec := by
        unfold RuleState.gateOpen at hgate
        rcases hgate with h0 | hw
        · omega
        · rwa [wrapInt64_of_InInt64 _ (by unfold InInt64; omega)] at hw
      rcases List.mem_cons.mp hb with rfl | hb
      · exact ⟨hopen, hgs⟩
      · have := hem b hb
        rw [hlat] at this
        exact ⟨by omega, this.2⟩
    · have hih := ih res.state hr2 hm2 (by rw [hlat]; exact hL)
        (fun t ht => by rw [hlat]; exact hrng t (by simp [ht])) hsort2.2
      obtain ⟨fin, results, hall, hlen, hem⟩ := hih
      refine ⟨fin, res :: results, sendAll_cons p rs e v calls res fin results hsend hall,
        by simp [hlen], ?_⟩
      intro b hb
      rw [okEmissions_cons, if_neg (by simp [hno])] at hb
      have := hem b hb
      rw [hlat] at this
      exact this

/-- C2: for a rule with `RateSec > 0` and any run of `Send` calls on one state whose
clock readings are positive `int64` values taken in non-decreasing order, with any
pattern of notifier failures, any two successful emissions are more than `RateSec`
apart, whichever of their clock readings is taken. -/
theorem emissions_spaced (p : Process) (r : AlarmRule) (n : Notifier)
    (calls : List (SendEnv × Option Logging)) (rs : RuleState)
    (hrule : rs.rule = some r) (hmeth : rs.method = some n) (hrate : 0 < r.RateSec)
    (hrng : ∀ t ∈ clockReadings calls, 0 < t ∧ t < 9223372036854775808)
    (hsort : (clockReadings calls).Sorted (· ≤ ·)) :
    ∃ fin results, sendAll p rs calls = some (fin, results) ∧
      results.length = calls.length ∧
      (okEmissions calls results).Pairwise (fun a b =>
        b.nowGate - a.nowStore > r.RateSec ∧ b.nowStore - a.nowStore > r.RateSec ∧
        b.nowGate - a.nowGate > r.RateSec ∧ b.nowStore - a.nowGate > r.RateSec) := by
  induction calls generalizing rs with
  | nil => exact ⟨rs, [], rfl, rfl, by simp [okEmissions]⟩
  | cons c calls ih =>
    obtain ⟨e, v⟩ := c
    rw [clockReadings_cons] at hrng hsort
    have hs := hrng e.nowStore (by simp)
    have hsort1 := List.sorted_cons.mp hsort
    have hsort2 := List.sorted_cons.mp hsort1.2
    have hgs : e.nowGate ≤ e.nowStore := hsort1.1 _ (by simp)
    have hrng2 : ∀ t ∈ clockReadings calls, 0 < t ∧ t < 9223372036854775808 :=
      fun t ht => hrng t (by simp [ht])
    obtain ⟨res, hsend, hr2, hm2, _, hcase⟩ := Send_step p rs r n e v hrule hmeth
    obtain ⟨fin, results, hall, hlen, hpair⟩ := ih res.state hr2 hm2 hrng2 hsort2.2
    refine ⟨fin, res :: results, sendAll_cons p rs e v calls res fin results hsend hall,
      by simp [hlen], ?_⟩
    rcases hcase with ⟨hok, _, hlat⟩ | ⟨hno, _⟩
    · rw [if_pos hrate] at hlat
      obtain ⟨fin2, results2, hall2, _, hem⟩ :=
        emissions_after_last p r n hrate calls res.state hr2 hm2 (by rw [hlat]; omega)
          (fun t ht => ⟨by rw [hlat]; exact hsort2.1 t ht, (hrng2 t ht).2⟩) hsort2.2
      rw [hall] at hall2
      cases hall2
      rw [okEmissions_cons, if_pos hok]
      refine List.pairwise_cons.mpr ⟨?_, hpair⟩
      intro b hb
      have := hem b hb
      rw [hlat] at this
      omega
    · rw [okEmissions_cons, if_neg (by simp [hno])]
      exact hpair

/-- Witness of C2: rate 60, a fresh state, records at 1000 and at 1061 with a notifier
that succeeds: both calls emit, 61 seconds apart. -/
theorem emissions_spaced_witness :
    (sendAll exProcess (RuleState.new.UpsertRule exRule none)
        [({ nowGate := 1000, nowStore := 1000, sendFails := false }, some exRecord),
         ({ nowGate := 1061, nowStore := 1061, sendFails := false }, some exRecord)]).map
      (fun x => x.2.map (fun res => res.sent.length)) = some [1, 1] ∧
    ∃ fin results,
      sendAll exProcess (RuleState.new.UpsertRule exRule none)
        [({ nowGate := 1000, nowStore := 1000, sendFails := false }, some exRecord),
         ({ nowGate := 1061, nowStore := 1061, sendFails := false }, some exRecord)]
        = some (fin, results) ∧
      results.length =
        [(({ nowGate := 1000, nowStore := 1000, sendFails := false } : SendEnv),
            some exRecord),
         ({ nowGate := 1061, nowStore := 1061, sendFails := false }, some exRecord)].length ∧
      (okEmissions
        [({ nowGate := 1000, nowStore := 1000, sendFails := false }, some exRecord),
         ({ nowGate := 1061, nowStore := 1061, sendFails := false }, some exRecord)]
        results).Pairwise (fun a b =>
          b.nowGate - a.nowStore > exRule.RateSec ∧ b.nowStore - a.nowStore > exRule.RateSec ∧
          b.nowGate - a.nowGate > exRule.RateSec ∧ b.nowStore - a.nowGate > exRule.RateSec) :=
  ⟨by decide,
   emissions_spaced exProcess exRule NewDingDing
    [({ nowGate := 1000, nowStore := 1000, sendFails := false }, some exRecord),
     ({ nowGate := 1061, nowStore := 1061, sendFails := false }, some exRecord)]
    (RuleState.new.UpsertRule exRule none) rfl rfl (by decide) (by decide) (by decide)⟩

theorem UpsertRule_new (rule : AlarmRule) (hook : Option HookURL)
    (hmeth : rule.Method = MethodDingDing) :
    (RuleState.new.UpsertRule rule hook).rule = some rule ∧
      (∃ n, (RuleState.new.UpsertRule rule hook).method = some n) ∧
      (RuleState.new.UpsertRule rule hook).latestSendTime = 0 ∧
      (RuleState.new.UpsertRule rule hook).count = 0 := by
  simp [RuleState.UpsertRule, RuleState.new, hmeth]

/-- With `RateSec <= 0`, a run from a state whose `latestSendTime` is 0 keeps it 0 after
every call, and every call with a non-nil record hands one content to the notifier. -/
theorem armed_forever (p : Process) (r : AlarmRule) (n : Notifier) (hrate : r.RateSec ≤ 0) :
    ∀ (calls : List (SendEnv × Option Logging)) (rs : RuleState),
      rs.rule = some r → rs.method = some n → rs.latestSendTime = 0 →
      ∃ fin results, sendAll p rs calls = some (fin, results) ∧
        results.length = calls.length ∧ fin.latestSendTime = 0 ∧
        (∀ res ∈ results, res.state.latestSendTime = 0) ∧
        ∀ cr ∈ calls.zip results, cr.1.2 ≠ none → cr.2.sent.length = 1 := by
  intro calls
  induction calls with
  | nil =>
    intro rs _ _ h0
    exact ⟨rs, [], rfl, rfl, h0, by simp, by simp⟩
  | cons c calls ih =>
    obtain ⟨e, v⟩ := c
    intro rs hrule hmeth h0
    obtain ⟨res, hsend, hr2, hm2, hsent, hcase⟩ := Send_step p rs r n e v hrule hmeth
    have hlat : res.state.latestSendTime = 0 := by
      rcases hcase with ⟨_, _, hlat⟩ | ⟨_, hlat⟩
      · rw [hlat, if_neg (by omega)]
      · rw [hlat, h0]
    obtain ⟨fin, results, hall, hlen, hfin, hstates, hcalls⟩ := ih res.state hr2 hm2 hlat
    refine ⟨fin, res :: results, sendAll_cons p rs e v calls res fin results hsend hall,
      by simp [hlen], hfin, ?_, ?_⟩
    · intro x hx
      rcases List.mem_cons.mp hx with rfl | hx
      · exact hlat
      · exact hstates x hx
    · intro cr hcr hv
      rw [List.zip_cons_cons] at hcr
      rcases List.mem_cons.mp hcr with rfl | hcr
      · exact hsent hv (Or.inl h0)
      · exact hcalls cr hcr hv

/-- C3: for a rule with `RateSec <= 0` (dispatched to the DingDing notifier), starting
from the freshly constructed state, every run of `Send` calls, whatever the clock
readings and notifier results, completes with `latestSendTime == 0` after every call,
and every call with a non-nil record hands one content to the notifier. -/
theorem rate_le_zero_always_emits (p : Process) (rule : AlarmRule) (hook : Option HookURL)
    (calls : List (SendEnv × Option Logging))
    (hrate : rule.RateSec ≤ 0) (hmeth : rule.Method = MethodDingDing) :
    (RuleState.new.UpsertRule rule hook).latestSendTime = 0 ∧
    ∃ fin results, sendAll p (RuleState.new.UpsertRule rule hook) calls = some (fin, results) ∧
      results.length = calls.length ∧ fin.latestSendTime = 0 ∧
      (∀ res ∈ results, res.state.latestSendTime = 0) ∧
      ∀ cr ∈ calls.zip results, cr.1.2 ≠ none → cr.2.sent.length = 1 := by
  obtain ⟨hr, ⟨n, hn⟩, h0, _⟩ := UpsertRule_new rule hook hmeth
  exact ⟨h0, armed_forever p rule n hrate calls _ hr hn h0⟩

/-- Witness of C3: the rule with rate 0 and three calls, the second of which fails. -/
theorem rate_le_zero_always_emits_witness :
    (RuleState.new.UpsertRule exRuleAlways none).latestSendTime = 0 ∧
    ∃ fin results,
      sendAll exProcess (RuleState.new.UpsertRule exRuleAlways none) exCalls
        = some (fin, results) ∧
      results.length = exCalls.length ∧ fin.latestSendTime = 0 ∧
      (∀ res ∈ results, res.state.latestSendTime = 0) ∧
      ∀ cr ∈ exCalls.zip results, cr.1.2 ≠ none → cr.2.sent.length = 1 :=
  rate_le_zero_always_emits exProcess exRuleAlways none exCalls (by decide) rfl

/-! ## Helper lemmas: Go maps -/

theorem GoMap.get_set {β : Type} (m : GoMap β) (k k2 : String) (v : β) :
    (m.set k v).get k2 = if k = k2 then some v else m.get k2 := by
  induction m with
  | nil => simp [GoMap.set, GoMap.get]
  | cons kv m ih =>
    obtain ⟨k1, v1⟩ := kv
    by_cases h1 : k1 = k
    · subst h1
      by_cases h2 : k1 = k2 <;> simp [GoMap.set, GoMap.get, h2]
    · by_cases h2 : k1 = k2
      · subst h2
        simp [GoMap.set, GoMap.get, h1, Ne.symm h1]
      · simp [GoMap.set, GoMap.get, h1, h2, ih]

theorem GoMap.get_eq_none {β : Type} (m : GoMap β) (k : String) (h : k ∉ m.keys) :
    m.get k = none := by
  induction m with
  | nil => rfl
  | cons kv m ih =>
    obtain ⟨k1, v1⟩ := kv
    simp [GoMap.keys] at h
    have h1 : ¬ k1 = k := fun e => h.1 e.symm
    simp only [GoMap.get, if_neg h1]
    exact ih (by simpa [GoMap.keys] using h.2)

theorem GoMap.mem_of_get {β : Type} (m : GoMap β) (k : String) (v : β)
    (h : m.get k = some v) : (k, v) ∈ m := by
  induction m with
  | nil => simp [GoMap.get] at h
  | cons kv m ih =>
    obtain ⟨k1, v1⟩ := kv
    by_cases h1 : k1 = k
    · simp [GoMap.get, h1] at h
      simp [h1, h]
    · simp only [GoMap.get, if_neg h1] at h
      exact List.mem_cons_of_mem _ (ih h)

theorem GoMap.keys_set {β : Type} (m : GoMap β) (k : String) (v : β) :
    (m.set k v).keys = if k ∈ m.keys then m.keys else m.keys ++ [k] := by
  induction m with
  | nil => simp [GoMap.set, GoMap.keys]
  | cons kv m ih =>
    obtain ⟨k1, v1⟩ := kv
    by_cases h1 : k1 = k
    · subst h1
      simp [GoMap.set, GoMap.keys]
    · have h2 : ¬ k = k1 := fun e => h1 e.symm
      simp only [GoMap.set, if_neg h1]
      simp only [GoMap.keys] at ih
      simp only [GoMap.keys, List.map_cons, List.mem_cons, h2, false_or, ih]
      split <;> simp

theorem GoMap.nodup_set {β : Type} (m : GoMap β) (k : String) (v : β) (h : m.keys.Nodup) :
    (m.set k v).keys.Nodup := by
  rw [GoMap.keys_set]
  split
  · exact h
  · rename_i hk
    exact List.Nodup.append h (List.nodup_singleton k) (by simpa using hk)

theorem GoMap.mem_set {β : Type} (m : GoMap β) (k : String) (v : β) (kv : String × β)
    (h : kv ∈ m.set k v) : kv = (k, v) ∨ kv ∈ m := by
  induction m with
  | nil => simpa [GoMap.set] using h
  | cons kv1 m ih =>
    obtain ⟨k1, v1⟩ := kv1
    by_cases h1 : k1 = k
    · simp only [GoMap.set, if_pos h1, List.mem_cons] at h
      rcases h with h | h
      · exact Or.inl h
      · exact Or.inr (List.mem_cons_of_mem _ h)
    · simp only [GoMap.set, if_neg h1, List.mem_cons] at h
      rcases h with h | h
      · exact Or.inr (by simp [h])
      · rcases ih h with h | h
        · exact Or.inl h
        · exact Or.inr (List.mem_cons_of_mem _ h)

theorem GoMap.get_of_mem {β : Type} (m : GoMap β) (k : String) (v : β)
    (hnd : m.keys.Nodup) (h : (k, v) ∈ m) : m.get k = some v := by
  induction m with
  | nil => simp at h
  | cons kv m ih =>
    obtain ⟨k1, v1⟩ := kv
    simp only [GoMap.keys, List.map_cons, List.nodup_cons] at hnd
    rcases List.mem_cons.mp h with h | h
    · cases h
      simp [GoMap.get]
    · have h1 : ¬ k1 = k := by
        intro e
        subst e
        exact hnd.1 (List.mem_map_of_mem Prod.fst h)
      simp only [GoMap.get, if_neg h1]
      exact ih hnd.2 h

/-! ## Helper lemmas: `InitRuleState` -/

theorem UpsertRule_rule_ne_none (rs : RuleState) (new : AlarmRule) (hook : Option HookURL) :
    ∃ r, (rs.UpsertRule new hook).rule = some r := by
  unfold RuleState.UpsertRule
  split
  · exact ⟨new, rfl⟩
  · rename_i h
    cases hr : rs.rule with
    | none => exact absurd (Or.inl hr) h
    | some r => exact ⟨r, rfl⟩

theorem UpsertRule_same (rs : RuleState) (old new : AlarmRule) (hook : Option HookURL)
    (hold : rs.rule = some old) (h : new.UpdatedAt = old.UpdatedAt) :
    rs.UpsertRule new hook = rs := by
  simp [RuleState.UpsertRule, hold, h]

theorem UpsertRule_changed (rs : RuleState) (old new : AlarmRule) (hook : Option HookURL)
    (hold : rs.rule = some old) (h : new.UpdatedAt ≠ old.UpdatedAt) :
    (rs.UpsertRule new hook).rule = some new ∧ (rs.UpsertRule new hook).hook = hook ∧
      (rs.UpsertRule new hook).key = new.Key ∧ (rs.UpsertRule new hook).latestSendTime = 0 ∧
      (rs.UpsertRule new hook).count = rs.count := by
  have h2 : ¬ old.UpdatedAt = new.UpdatedAt := fun e => h e.symm
  simp [RuleState.UpsertRule, hold, h2]

theorem UpsertRule_fresh (new : AlarmRule) (hook : Option HookURL) :
    (RuleState.new.UpsertRule new hook).rule = some new ∧
      (RuleState.new.UpsertRule new hook).hook = hook ∧
      (RuleState.new.UpsertRule new hook).key = new.Key := by
  simp [RuleState.UpsertRule, RuleState.new]

theorem buildStep_get_notin (hooksMap : GoMap HookURL) (rules : List AlarmRule)
    (m0 : GoMap RuleState) (k : String) (h : k ∉ rules.map AlarmRule.Key) :
    (rules.foldl (fun m rule =>
        m.set rule.Key (RuleState.new.UpsertRule rule (hooksMap.get rule.HookID))) m0).get k
      = m0.get k := by
  induction rules generalizing m0 with
  | nil => rfl
  | cons a rules ih =>
    simp only [List.map_cons, List.mem_cons, not_or] at h
    rw [List.foldl_cons, ih _ h.2, GoMap.get_set, if_neg (fun e => h.1 e.symm)]

theorem buildStep_get_mem (hooksMap : GoMap HookURL) (rules : List AlarmRule)
    (m0 : GoMap RuleState) (r : AlarmRule) (hnd : (rules.map AlarmRule.Key).Nodup)
    (hr : r ∈ rules) :
    (rules.foldl (fun m rule =>
        m.set rule.Key (RuleState.new.UpsertRule rule (hooksMap.get rule.HookID))) m0).get r.Key
      = some (RuleState.new.UpsertRule r (hooksMap.get r.HookID)) := by
  induction rules generalizing m0 with
  | nil => simp at hr
  | cons a rules ih =>
    simp only [List.map_cons, List.nodup_cons] at hnd
    rw [List.foldl_cons]
    rcases List.mem_cons.mp hr with rfl | hr
    · rw [buildStep_get_notin _ _ _ _ hnd.1, GoMap.get_set, if_pos rfl]
    · exact ih _ hnd.2 hr

theorem buildStep_inv (hooksMap : GoMap HookURL) (rules : List AlarmRule)
    (m0 : GoMap RuleState) (hnd : m0.keys.Nodup) (h0 : ∀ kv ∈ m0, KeyedBy kv.1 kv.2) :
    (rules.foldl (fun m rule =>
        m.set rule.Key (RuleState.new.UpsertRule rule (hooksMap.get rule.HookID))) m0).keys.Nodup
    ∧ ∀ kv ∈ rules.foldl (fun m rule =>
        m.set rule.Key (RuleState.new.UpsertRule rule (hooksMap.get rule.HookID))) m0,
      KeyedBy kv.1 kv.2 := by
  induction rules generalizing m0 with
  | nil => exact ⟨hnd, h0⟩
  | cons a rules ih =>
    rw [List.foldl_cons]
    apply ih _ (GoMap.nodup_set _ _ _ hnd)
    intro kv hkv
    rcases GoMap.mem_set _ _ _ _ hkv with rfl | hkv
    · obtain ⟨h1, _, h3⟩ := UpsertRule_fresh a (hooksMap.get a.HookID)
      exact ⟨h3, a, h1, rfl⟩
    · exact h0 kv hkv

/-- The third loop of `InitRuleState` never dereferences a nil rule, keeps the fresh map
well keyed, replaces the fresh state of a key that had an old state by the upserted old
state, and leaves every other key alone. -/
theorem carryAll_spec :
    ∀ (old : List (String × RuleState)) (m : GoMap RuleState),
      (old.map Prod.fst).Nodup → (∀ kv ∈ old, KeyedBy kv.1 kv.2) →
      m.keys.Nodup → (∀ kv ∈ m, KeyedBy kv.1 kv.2) →
      ∃ m2, carryAll old m = some m2 ∧ m2.keys.Nodup ∧ (∀ kv ∈ m2, KeyedBy kv.1 kv.2) ∧
        (∀ k, GoMap.get old k = none → m2.get k = m.get k) ∧
        (∀ k, m.get k = none → m2.get k = none) ∧
        ∀ k st v r, GoMap.get old k = some st → m.get k = some v → v.rule = some r →
          m2.get k = some (st.UpsertRule r v.hook) := by
  intro old
  induction old with
  | nil =>
    intro m _ _ hnd hm
    exact ⟨m, rfl, hnd, hm, fun _ _ => rfl, fun _ h => h, fun k st v r h => by simp [GoMap.get] at h⟩
  | cons kv0 old ih =>
    obtain ⟨k0, st0⟩ := kv0
    intro m hondup hokey hnd hm
    simp only [List.map_cons, List.nodup_cons] at hondup
    have hk0 : st0.key = k0 := (hokey (k0, st0) (by simp)).1
    obtain ⟨r0, hr0, hr0k⟩ := (hokey (k0, st0) (by simp)).2
    simp only at hr0 hr0k
    have hold_none : GoMap.get old k0 = none := GoMap.get_eq_none old k0 hondup.1
    have hokey2 : ∀ kv ∈ old, KeyedBy kv.1 kv.2 := fun kv h => hokey kv (List.mem_cons_of_mem _ h)
    cases hget : m.get k0 with
    | none =>
      have hcf : carryForward m st0 = some m := by simp [carryForward, hk0, hget]
      obtain ⟨m2, hall, hnd2, hm2, hA, hB, hC⟩ := ih m hondup.2 hokey2 hnd hm
      refine ⟨m2, by simp [carryAll, hcf, hall], hnd2, hm2, ?_, hB, ?_⟩
      · intro k hk
        by_cases hkk : k0 = k
        · subst hkk
          rw [hB _ hget, hget]
        · simp only [GoMap.get, if_neg hkk] at hk
          exact hA k hk
      · intro k st v r hk hv hvr
        by_cases hkk : k0 = k
        · subst hkk
          rw [hget] at hv
          cases hv
        · simp only [GoMap.get, if_neg hkk] at hk
          exact hC k st v r hk hv hvr
    | some v0 =>
      obtain ⟨hv0k, rv, hrv, hrvk⟩ := hm (k0, v0) (GoMap.mem_of_get m k0 v0 hget)
      simp only at hv0k hrv hrvk
      have hcf : carryForward m st0 = some (m.set k0 (st0.UpsertRule rv v0.hook)) := by
        simp [carryForward, hk0, hget, hrv]
      have hm1 : ∀ kv ∈ m.set k0 (st0.UpsertRule rv v0.hook), KeyedBy kv.1 kv.2 := by
        intro kv hkv
        rcases GoMap.mem_set _ _ _ _ hkv with rfl | hkv
        · by_cases hu : rv.UpdatedAt = r0.UpdatedAt
          · rw [UpsertRule_same st0 r0 rv v0.hook hr0 hu]
            exact ⟨hk0, r0, hr0, hr0k⟩
          · obtain ⟨h1, _, h3, _, _⟩ := UpsertRule_changed st0 r0 rv v0.hook hr0 hu
            exact ⟨by rw [h3, hrvk], rv, h1, hrvk⟩
        · exact hm kv hkv
      obtain ⟨m2, hall, hnd2, hm2, hA, hB, hC⟩ :=
        ih (m.set k0 (st0.UpsertRule rv v0.hook)) hondup.2 hokey2 (GoMap.nodup_set _ _ _ hnd) hm1
      refine ⟨m2, by simp [carryAll, hcf, hall], hnd2, hm2, ?_, ?_, ?_⟩
      · intro k hk
        by_cases hkk : k0 = k
        · subst hkk
          simp [GoMap.get] at hk
        · simp only [GoMap.get, if_neg hkk] at hk
          rw [hA k hk, GoMap.get_set, if_neg hkk]
      · intro k hk
        have hkk : ¬ k0 = k := by
          intro e
          subst e
          rw [hget] at hk
          cases hk
        apply hB
        rw [GoMap.get_set, if_neg hkk, hk]
      · intro k st v r hk hv hvr
        by_cases hkk : k0 = k
        · subst hkk
          simp only [GoMap.get, if_true] at hk
          cases hk
          rw [hget] at hv
          cases hv
          rw [hrv] at hvr
          cases hvr
          rw [hA k0 hold_none, GoMap.get_set, if_pos rfl]
        · simp only [GoMap.get, if_neg hkk] at hk
          exact hC k st v r hk (by rw [GoMap.get_set, if_neg hkk, hv]) hvr

theorem NewAlarm_wellFormed : NewAlarm.WellFormed := by
  refine ⟨by simp [NewAlarm, GoMap.keys], ?_⟩
  intro kv hkv
  simp [NewAlarm] at hkv

theorem exAlarm_wellFormed : exAlarm.WellFormed := by
  refine ⟨by simp [exAlarm, GoMap.keys], ?_⟩
  intro kv hkv
  simp only [exAlarm, List.mem_singleton] at hkv
  subst hkv
  exact ⟨rfl, exRule, rfl, by decide⟩

/-- The fresh map holds, under every key, the fresh state of the last rule with that
key. -/
theorem buildStep_get_last (hooksMap : GoMap HookURL) (k : String) :
    ∀ (rules : List AlarmRule) (m0 : GoMap RuleState) (acc : Option AlarmRule),
      m0.get k = acc.map
        (fun r => RuleState.new.UpsertRule r (hooksMap.get r.HookID)) →
      (rules.foldl (fun m rule =>
          m.set rule.Key (RuleState.new.UpsertRule rule (hooksMap.get rule.HookID))) m0).get k
        = (rules.foldl (fun acc r => if r.Key = k then some r else acc) acc).map
            (fun r => RuleState.new.UpsertRule r (hooksMap.get r.HookID)) := by
  intro rules
  induction rules with
  | nil =>
    intro m0 acc h
    exact h
  | cons a rules ih =>
    intro m0 acc h
    rw [List.foldl_cons, List.foldl_cons]
    apply ih
    rw [GoMap.get_set]
    by_cases hk : a.Key = k
    · simp [hk]
    · simp [hk, h]

theorem lastWithKey_some (k : String) :
    ∀ (rules : List AlarmRule) (acc : Option AlarmRule) (r : AlarmRule),
      rules.foldl (fun acc x => if x.Key = k then some x else acc) acc = some r →
      (r ∈ rules ∧ r.Key = k) ∨ acc = some r := by
  intro rules
  induction rules with
  | nil =>
    intro acc r h
    exact Or.inr h
  | cons a rules ih =>
    intro acc r h
    rw [List.foldl_cons] at h
    rcases ih _ r h with ⟨hm, hk⟩ | hacc
    · exact Or.inl ⟨List.mem_cons_of_mem _ hm, hk⟩
    · by_cases hak : a.Key = k
      · simp only [hak, if_true, Option.some.injEq] at hacc
        subst hacc
        exact Or.inl ⟨by simp, hak⟩
      · simp only [hak, if_false] at hacc
        exact Or.inr hacc

/-- The last rule with key `k` is a rule of the list and has key `k`. -/
theorem lastWithKey_mem (rules : List AlarmRule) (k : String) (r : AlarmRule)
    (h : lastWithKey rules k = some r) : r ∈ rules ∧ r.Key = k := by
  rcases lastWithKey_some k rules none r h with h1 | h1
  · exact h1
  · cases h1

theorem lastWithKey_of_nodup (rules : List AlarmRule) (r : AlarmRule)
    (hnd : (rules.map AlarmRule.Key).Nodup) (hr : r ∈ rules) :
    lastWithKey rules r.Key = some r := by
  have h1 := buildStep_get_mem [] rules [] r hnd hr
  have h2 := buildStep_get_last [] r.Key rules [] none rfl
  rw [h1] at h2
  unfold lastWithKey
  cases hl : rules.foldl (fun acc x => if x.Key = r.Key then some x else acc) none with
  | none => simp [hl] at h2
  | some x =>
    simp only [hl, Option.map_some', Option.some.injEq] at h2
    have hx := (UpsertRule_fresh x (GoMap.get [] x.HookID)).1
    rw [← h2, (UpsertRule_fresh r (GoMap.get [] r.HookID)).1] at hx
    exact hx.symm

/-- Reload of a well-formed registry: the call returns, the new registry is well formed,
and a key that had a state `st` and whose last rule in `rules` is `r` is registered
with `st.UpsertRule r hook`, `hook` being the hook of `r`. -/
theorem InitRuleState_spec (a : Alarm) (rules : List AlarmRule) (hooks : List HookURL)
    (hwf : a.WellFormed) :
    ∃ a2, a.InitRuleState rules hooks = some a2 ∧ a2.WellFormed ∧
      ∀ k st r, a.ruleState.get k = some st → lastWithKey rules k = some r →
        a2.ruleState.get k = some (st.UpsertRule r ((buildHooksMap hooks).get r.HookID)) := by
  obtain ⟨hfnd, hfkey⟩ := buildStep_inv (buildHooksMap hooks) rules [] (by simp [GoMap.keys])
    (by simp)
  obtain ⟨m2, hall, hnd2, hm2, _, _, hC⟩ :=
    carryAll_spec a.ruleState (buildRuleState (buildHooksMap hooks) rules) hwf.1 hwf.2
      hfnd hfkey
  refine ⟨{ a with ruleState := m2, modules := buildModules rules,
                    hooks := buildHooksMap hooks },
    by simp [Alarm.InitRuleState, hall], ⟨hnd2, hm2⟩, ?_⟩
  intro k st r hst hlast
  have hfresh : (buildRuleState (buildHooksMap hooks) rules).get k
      = some (RuleState.new.UpsertRule r ((buildHooksMap hooks).get r.HookID)) := by
    have := buildStep_get_last (buildHooksMap hooks) k rules [] none rfl
    unfold lastWithKey at hlast
    rw [hlast] at this
    exact this
  obtain ⟨h1, h2, _⟩ := UpsertRule_fresh r ((buildHooksMap hooks).get r.HookID)
  have := hC k st _ r hst hfresh h1
  rw [h2] at this
  exact this

/-- C7 (counterexample): the registry holds a cooling state (count 3, last send 100) of
the rule `(a_b, c, ERROR)` with `UpdatedAt` 5 under the key `a_b_c_ERROR`; it is
reloaded with that same rule followed by the rule `(a, b_c, ERROR)` with `UpdatedAt` 7,
which has the same key. The key appears in `rules` with the unchanged `UpdatedAt`, yet
the state registered afterwards has `latestSendTime == 0` and the later rule. -/
theorem InitRuleState_later_duplicate_wins :
    (exAlarmAB.ruleState.get "a_b_c_ERROR").map
        (fun st => (st.count, st.latestSendTime, st.rule.map AlarmRule.UpdatedAt))
      = some (3, 100, some 5) ∧
    exRuleAB ∈ [exRuleAB, exRuleABC] ∧ exRuleAB.Key = "a_b_c_ERROR" ∧ exRuleAB.UpdatedAt = 5 ∧
    (exAlarmAB.InitRuleState [exRuleAB, exRuleABC] []).bind
        (fun a2 => (a2.ruleState.get "a_b_c_ERROR").map
          (fun st => (st.count, st.latestSendTime, st.rule)))
      = some (3, 0, some exRuleABC) := by
  decide

/-- C7 (amended): reload of a registry the code can build: a key that had a state and
whose last rule in `rules` (the one the reload registers) has the `UpdatedAt` of the
state's current rule is registered after the call with the very same state, so with the
same `count` and `latestSendTime`, whatever else `rules` and `hooks` hold. -/
theorem InitRuleState_carries_unchanged (a : Alarm) (rules : List AlarmRule)
    (hooks : List HookURL) (k : String) (st : RuleState) (old r : AlarmRule)
    (hwf : a.WellFormed) (hst : a.ruleState.get k = some st) (hold : st.rule = some old)
    (hlast : lastWithKey rules k = some r) (hupd : r.UpdatedAt = old.UpdatedAt) :
    ∃ a2 st2, a.InitRuleState rules hooks = some a2 ∧ a2.ruleState.get k = some st2 ∧
      st2.count = st.count ∧ st2.latestSendTime = st.latestSendTime ∧ st2 = st := by
  obtain ⟨a2, hinit, _, hget⟩ := InitRuleState_spec a rules hooks hwf
  have := hget k st r hst hlast
  rw [UpsertRule_same st old r _ hold hupd] at this
  exact ⟨a2, st, hinit, this, rfl, rfl, rfl⟩

/-- Witness of C7 (amended): the registry with the cooling state is reloaded with an
unrelated new rule and its own rule. -/
theorem InitRuleState_carries_unchanged_witness :
    ∃ a2 st2, exAlarm.InitRuleState [exOtherRule, exRule] [] = some a2 ∧
      a2.ruleState.get "svc_oom_ERROR" = some st2 ∧
      st2.count = exCooling.count ∧ st2.latestSendTime = exCooling.latestSendTime ∧
      st2 = exCooling :=
  InitRuleState_carries_unchanged exAlarm [exOtherRule, exRule] [] "svc_oom_ERROR" exCooling
    exRule exRule exAlarm_wellFormed (by decide) rfl (by decide) rfl

/-- C8 (counterexample): the cooling state has `count == 3`; after a reload with the
edited rule (another `UpdatedAt`) the state registered under the key still has
`count == 3`, not 0. -/
theorem InitRuleState_reset_keeps_count :
    (exAlarm.InitRuleState [exRuleEdited] []).bind
        (fun a2 => (a2.ruleState.get "svc_oom_ERROR").map
          (fun st => (st.count, st.latestSendTime, st.rule)))
      = some (3, 0, some exRuleEdited) := by
  decide

/-- C8 (amended): reload of a registry the code can build: a key that had a state and
whose last rule in `rules` (the one the reload registers) is `r` keeps its `count`; when
the `UpdatedAt` of `r` differs from that of the state's current rule, the state
registered after the call has `latestSendTime == 0` and refers to `r`, its hook and its
key; `latestSendTime` is preserved exactly when `UpdatedAt` is unchanged or
`latestSendTime` was already 0. -/
theorem InitRuleState_rearms_changed (a : Alarm) (rules : List AlarmRule)
    (hooks : List HookURL) (k : String) (st : RuleState) (old r : AlarmRule)
    (hwf : a.WellFormed) (hst : a.ruleState.get k = some st) (hold : st.rule = some old)
    (hlast : lastWithKey rules k = some r) :
    r ∈ rules ∧ r.Key = k ∧
    ∃ a2 st2, a.InitRuleState rules hooks = some a2 ∧ a2.ruleState.get k = some st2 ∧
      st2.count = st.count ∧
      (r.UpdatedAt ≠ old.UpdatedAt →
        st2.latestSendTime = 0 ∧ st2.rule = some r ∧
        st2.hook = (buildHooksMap hooks).get r.HookID ∧ st2.key = k) ∧
      (st2.latestSendTime = st.latestSendTime ↔
        (r.UpdatedAt = old.UpdatedAt ∨ st.latestSendTime = 0)) := by
  obtain ⟨a2, hinit, _, hget⟩ := InitRuleState_spec a rules hooks hwf
  have h := hget k st r hst hlast
  obtain ⟨hmem, hk⟩ := lastWithKey_mem rules k r hlast
  refine ⟨hmem, hk, a2, _, hinit, h, ?_⟩
  by_cases hupd : r.UpdatedAt = old.UpdatedAt
  · rw [UpsertRule_same st old r _ hold hupd]
    exact ⟨rfl, fun hne => absurd hupd hne, by simp [hupd]⟩
  · obtain ⟨h1, h2, h3, h4, h5⟩ := UpsertRule_changed st old r
      ((buildHooksMap hooks).get r.HookID) hold hupd
    refine ⟨h5, fun _ => ⟨h4, h1, h2, by rw [h3, hk]⟩, ?_⟩
    rw [h4]
    constructor
    · intro h0
      exact Or.inr h0.symm
    · rintro (h0 | h0)
      · exact absurd h0 hupd
      · exact h0.symm

/-- Witness of C8 (amended): the registry with the cooling state is reloaded with the
edited rule. -/
theorem InitRuleState_rearms_changed_witness :
    exRuleEdited ∈ [exRuleEdited] ∧ exRuleEdited.Key = "svc_oom_ERROR" ∧
    ∃ a2 st2, exAlarm.InitRuleState [exRuleEdited] [] = some a2 ∧
      a2.ruleState.get "svc_oom_ERROR" = some st2 ∧
      st2.count = exCooling.count ∧
      (exRuleEdited.UpdatedAt ≠ exRule.UpdatedAt →
        st2.latestSendTime = 0 ∧ st2.rule = some exRuleEdited ∧
        st2.hook = (buildHooksMap []).get exRuleEdited.HookID ∧ st2.key = "svc_oom_ERROR") ∧
      (st2.latestSendTime = exCooling.latestSendTime ↔
        (exRuleEdited.UpdatedAt = exRule.UpdatedAt ∨ exCooling.latestSendTime = 0)) :=
  InitRuleState_rearms_changed exAlarm [exRuleEdited] [] "svc_oom_ERROR" exCooling
    exRule exRuleEdited exAlarm_wellFormed (by decide) rfl (by decide)

/-! ## Helper lemmas: redaction -/

theorem not_prefix_star_cons (h : List Char) (t : List Char) (hne : h ≠ [])
    (hstar : '*' ∉ h) : ¬ h <+: '*' :: t := by
  cases h with
  | nil => exact absurd rfl hne
  | cons a h2 =>
    intro hp
    have := (List.cons_prefix_cons.mp hp).1
    subst this
    exact hstar (by simp)

/-- A star-free text that starts the output of the scan starts its input. -/
theorem prefix_of_prefix_replaceScan (old : List Char) :
    ∀ (s h : List Char), '*' ∉ h → h <+: replaceScan old ['*', '*', '*', '*'] 0 s → h <+: s := by
  intro s
  induction s with
  | nil =>
    intro h _ hp
    simpa [replaceScan] using hp
  | cons c cs ih =>
    intro h hstar hp
    cases h with
    | nil => exact List.nil_prefix
    | cons a h2 =>
      by_cases hm : old.isPrefixOf (c :: cs) = true
      · simp only [replaceScan, hm, if_true, List.cons_append] at hp
        exact absurd hp (not_prefix_star_cons _ _ (by simp) hstar)
      · simp only [replaceScan, hm] at hp
        have hp2 := List.cons_prefix_cons.mp hp
        have hstar2 : '*' ∉ h2 := fun hmem => hstar (List.mem_cons_of_mem _ hmem)
        exact List.cons_prefix_cons.mpr ⟨hp2.1, ih h2 hstar2 hp2.2⟩

/-- After the scan has replaced `old` by four stars, a non-empty star-free text that is
`old` itself, or that did not occur before, does not occur. -/
theorem not_infix_replaceScan (old h : List Char) (hne : h ≠ []) (hstar : '*' ∉ h) :
    ∀ (s : List Char) (n : Nat), (h = old ∨ ¬ h <:+: s) →
      ¬ h <:+: replaceScan old ['*', '*', '*', '*'] n s := by
  intro s
  induction s with
  | nil =>
    intro n _ hin
    simp [replaceScan] at hin
    exact hne hin
  | cons c cs ih =>
    intro n hcase
    have hcase2 : h = old ∨ ¬ h <:+: cs := by
      rcases hcase with h1 | h1
      · exact Or.inl h1
      · exact Or.inr (fun hin => h1 (List.infix_cons hin))
    cases n with
    | succ k =>
      simp only [replaceScan]
      exact ih k hcase2
    | zero =>
      by_cases hm : old.isPrefixOf (c :: cs) = true
      · simp only [replaceScan, hm, if_true, List.cons_append, List.nil_append]
        intro hin
        rcases List.infix_cons_iff.mp hin with hp | hin
        · exact not_prefix_star_cons _ _ hne hstar hp
        rcases List.infix_cons_iff.mp hin with hp | hin
        · exact not_prefix_star_cons _ _ hne hstar hp
        rcases List.infix_cons_iff.mp hin with hp | hin
        · exact not_prefix_star_cons _ _ hne hstar hp
        rcases List.infix_cons_iff.mp hin with hp | hin
        · exact not_prefix_star_cons _ _ hne hstar hp
        exact ih _ hcase2 hin
      · intro hin
        have hout : replaceScan old ['*', '*', '*', '*'] 0 (c :: cs)
            = c :: replaceScan old ['*', '*', '*', '*'] 0 cs := by
          simp only [replaceScan, hm]
          rfl
        rw [hout] at hin
        rcases List.infix_cons_iff.mp hin with hp | hin
        · rw [← hout] at hp
          have hps := prefix_of_prefix_replaceScan old (c :: cs) h hstar hp
          rcases hcase with h1 | h1
          · subst h1
            exact hm (List.isPrefixOf_iff_prefix.mpr hps)
          · exact h1 hps.isInfix
        · exact ih 0 hcase2 hin

theorem ReplaceAll_clean (s old h : String) (hold : Redactable old) (hh : Redactable h)
    (hcase : h = old ∨ ¬ Contains s h) :
    ¬ Contains (strings.ReplaceAll s old "****") h := by
  have hne : old ≠ "****" := by
    intro e
    subst e
    exact hold.2 (by decide)
  have hout : strings.ReplaceAll s old "****"
      = String.mk (replaceScan old.data ['*', '*', '*', '*'] 0 s.data) := by
    unfold strings.ReplaceAll
    rw [if_neg hne, if_neg hold.1]
  rw [hout]
  unfold Contains at hcase ⊢
  apply not_infix_replaceScan old.data h.data hh.1 hh.2
  rcases hcase with h1 | h1
  · exact Or.inl (by rw [h1])
  · exact Or.inr h1

theorem hideAll_clean :
    ∀ (hides : List String) (str : String) (done : List String),
      (∀ h ∈ done, Redactable h ∧ ¬ Contains str h) → (∀ h ∈ hides, Redactable h) →
      ∀ h, h ∈ done ∨ h ∈ hides → ¬ Contains (hideAll hides str) h := by
  intro hides
  induction hides with
  | nil =>
    intro str done hdone _ h hmem
    rcases hmem with hmem | hmem
    · exact (hdone h hmem).2
    · simp at hmem
  | cons x rest ih =>
    intro str done hdone hgood h hmem
    have hx : Redactable x := hgood x (by simp)
    have hstep : hideAll (x :: rest) str = hideAll rest (strings.ReplaceAll str x "****") := by
      simp [hideAll]
    rw [hstep]
    apply ih (strings.ReplaceAll str x "****") (x :: done)
    · intro g hg
      rcases List.mem_cons.mp hg with rfl | hg
      · exact ⟨hx, ReplaceAll_clean str g g hx hx (Or.inl rfl)⟩
      · exact ⟨(hdone g hg).1, ReplaceAll_clean str x g hx (hdone g hg).1 (Or.inr (hdone g hg).2)⟩
    · exact fun g hg => hgood g (List.mem_cons_of_mem _ hg)
    · rcases hmem with hmem | hmem
      · exact Or.inl (List.mem_cons_of_mem _ hmem)
      · rcases List.mem_cons.mp hmem with rfl | hmem
        · exact Or.inl (by simp)
        · exact Or.inr hmem

set_option maxRecDepth 100000 in
/-- C9 (counterexample): a registry whose hide list holds `secret`, a hook whose hide
list holds `*`, and a record whose detail is `secret a*b`: the content handed to the
notifier contains `secret` (the registry list is never applied) and contains `*` (the
replacement text itself is made of stars). -/
theorem content_leaks_hide_text :
    (((NewAlarm.AddHideText ["secret"]).InitRuleState [exRule] [exStarHook]).bind
        (fun a => a.AlarmIfHitRule exProcess [exSecretRecord]
          [{ nowGate := 1700000000, nowStore := 1700000000, sendFails := false }])).map
      (fun x => (x.1.hideTexts, (x.1.hooks.get "h1").map HookURL.HideText,
        x.2.map (fun c => (decide (Contains c "secret"), decide (Contains c "*")))))
      = some (["secret"], some ["*"], [(true, true)]) := by
  decide

/-- C9 (amended): for a state with a rule and a hook whose hide texts are all non-empty
and free of `*`, the content returned by `parsingContent` contains no string of
`hook.HideText`. -/
theorem parsingContent_redacts_hook (p : Process) (rs : RuleState) (r : AlarmRule)
    (hk : HookURL) (v : Logging) (hrule : rs.rule = some r) (hhook : rs.hook = some hk)
    (hgood : ∀ h ∈ hk.HideText, Redactable h) :
    ∃ content, rs.parsingContent p v = some content ∧
      ∀ h ∈ hk.HideText, ¬ Contains content h := by
  refine ⟨hideAll hk.HideText (rs.template p r v), ?_, ?_⟩
  · simp [RuleState.parsingContent, RuleState.redact, hrule, hhook]
  · intro h hmem
    exact hideAll_clean hk.HideText (rs.template p r v) [] (by simp) hgood h (Or.inr hmem)

/-- Witness of C9 (amended): the state bound to the hook that hides `memory` and
`1.2.3.4`, on a record that holds both. -/
theorem parsingContent_redacts_hook_witness :
    ∃ content, exHooked.parsingContent exProcess exRecord = some content ∧
      ∀ h ∈ exHook.HideText, ¬ Contains content h :=
  parsingContent_redacts_hook exProcess exHooked exRule exHook exRecord rfl rfl (by decide)

/-! ## Helper lemmas: calendar -/

theorem isLeap_iff (y : Int) : isLeap y = true ↔ isLeapYear y := by
  simp [isLeap, isLeapYear]

theorem yearDay_core (d n400 d1 n100a n4 n1a : Int)
    (h1 : n400 = d / 146097) (h2 : d1 = d % 146097)
    (h3 : n100a = d1 / 36524)
    (h4 : n4 = (d1 - 36524 * (n100a - n100a / 4)) / 1461)
    (h5 : n1a = (d1 - 36524 * (n100a - n100a / 4) - 1461 * n4) / 365) :
    yearStart (400 * n400 + 100 * (n100a - n100a / 4) + 4 * n4 + (n1a - n1a / 4)
          + absoluteZeroYear)
        + (d1 - 36524 * (n100a - n100a / 4) - 1461 * n4 - 365 * (n1a - n1a / 4))
        = d - 106751991073094 ∧
      0 ≤ d1 - 36524 * (n100a - n100a / 4) - 1461 * n4 - 365 * (n1a - n1a / 4) ∧
      d1 - 36524 * (n100a - n100a / 4) - 1461 * n4 - 365 * (n1a - n1a / 4) ≤ 365 ∧
      (d1 - 36524 * (n100a - n100a / 4) - 1461 * n4 - 365 * (n1a - n1a / 4) = 365 →
        isLeapYear (400 * n400 + 100 * (n100a - n100a / 4) + 4 * n4 + (n1a - n1a / 4)
          + absoluteZeroYear)) := by
  have ha0 : 0 ≤ n100a := by omega
  have ha4 : n100a ≤ 4 := by omega
  have hb0 : 0 ≤ n1a := by omega
  have hb4 : n1a ≤ 4 := by omega
  unfold yearStart isLeapYear absoluteZeroYear
  interval_cases n100a <;> interval_cases n1a <;> omega

/-- The year and day of the year computed by `yearDay` are the Gregorian ones of the
day that lies `d` days after the first day of `absoluteZeroYear`, which is day
`d - 106751991073094` counted from 1970-01-01. -/
theorem yearDay_spec (d : Int) :
    yearStart (yearDay d).1 + (yearDay d).2 = d - 106751991073094 ∧
      0 ≤ (yearDay d).2 ∧ (yearDay d).2 ≤ 365 ∧
      ((yearDay d).2 = 365 → isLeapYear (yearDay d).1) :=
  yearDay_core d _ _ _ _ _ rfl rfl rfl rfl rfl

theorem monthDay_core (y yday month : Int) (leap : Prop) [Decidable leap]
    (hl : leap ↔ isLeapYear y) (h0 : 0 ≤ yday) (h1 : yday ≤ 365)
    (h2 : yday = 365 → leap) (h59 : ¬ (leap ∧ yday = 59))
    (hm : month = (if leap ∧ yday > 59 then yday - 1 else yday) / 31) :
    (if (if leap ∧ yday > 59 then yday - 1 else yday) ≥ daysBefore (month + 1) then
        1 ≤ month + 2 ∧ month + 2 ≤ 12 ∧ daysBeforeMonth y (month + 2) ≤ yday ∧
          yday < daysBeforeMonth y (month + 2 + 1) ∧
          (if leap ∧ yday > 59 then yday - 1 else yday) - daysBefore (month + 1) + 1
            = yday - daysBeforeMonth y (month + 2) + 1
      else
        1 ≤ month + 1 ∧ month + 1 ≤ 12 ∧ daysBeforeMonth y (month + 1) ≤ yday ∧
          yday < daysBeforeMonth y (month + 1 + 1) ∧
          (if leap ∧ yday > 59 then yday - 1 else yday) - daysBefore month + 1
            = yday - daysBeforeMonth y (month + 1) + 1) := by
  by_cases hleap : leap
  · have hy : isLeapYear y := hl.mp hleap
    have hne : yday ≠ 59 := fun e => h59 ⟨hleap, e⟩
    have hb0 : 0 ≤ month := by rw [hm]; split <;> omega
    have hb11 : month ≤ 11 := by rw [hm]; split <;> omega
    interval_cases month <;>
      simp only [daysBefore, daysBeforeMonth, hleap, hy, true_and, and_true] at hm ⊢ <;>
      norm_num <;> split_ifs at hm ⊢ <;> omega
  · have hy : ¬ isLeapYear y := fun e => hleap (hl.mpr e)
    have h364 : yday ≤ 364 := by
      by_contra hc
      exact hleap (h2 (by omega))
    have hb0 : 0 ≤ month := by rw [hm]; split <;> omega
    have hb11 : month ≤ 11 := by rw [hm]; split <;> omega
    interval_cases month <;>
      simp only [daysBefore, daysBeforeMonth, hleap, hy, false_and, and_false] at hm ⊢ <;>
      norm_num <;> split_ifs at hm ⊢ <;> omega

/-- The date computed by `absDate` is the Gregorian one of the day that lies
`abs / 86400` days after the first day of `absoluteZeroYear`: the month is in 1..12,
the day number counted from 1970-01-01 lies in the month returned, and the day of the
month is its offset in that month. -/
theorem absDate_spec (abs : Int) :
    1 ≤ (absDate abs).2.1 ∧ (absDate abs).2.1 ≤ 12 ∧
      monthStart (absDate abs).1 (absDate abs).2.1 ≤ abs / 86400 - 106751991073094 ∧
      abs / 86400 - 106751991073094 < monthStart (absDate abs).1 ((absDate abs).2.1 + 1) ∧
      (absDate abs).2.2
        = abs / 86400 - 106751991073094 - monthStart (absDate abs).1 (absDate abs).2.1 + 1 := by
  obtain ⟨hz, h0, h1, h2⟩ := yearDay_spec (abs / 86400)
  simp only [absDate, monthStart]
  generalize (yearDay (abs / 86400)).1 = y at *
  generalize (yearDay (abs / 86400)).2 = yday at *
  have hl : (isLeap y = true) ↔ isLeapYear y := isLeap_iff y
  by_cases h59 : isLeap y = true ∧ yday = 59
  · have hy : isLeapYear y := hl.mp h59.1
    simp only [monthDay, h59, and_self, if_true]
    simp only [daysBeforeMonth, hy]
    norm_num
    omega
  · have hcore := monthDay_core y yday _ (isLeap y = true) hl h0 h1
      (fun e => hl.mpr (h2 e)) h59 rfl
    simp only [monthDay, if_neg h59]
    split_ifs at hcore ⊢ <;> (try dsimp only at hcore ⊢) <;> omega

/-- In range the absolute time is the local time shifted by `unixToAbsolute`: its day
number and second of the day are those of the local time. -/
theorem timeAbs_of_inRange (loc : Location) (unix : Int) (h : timeInRange loc unix) :
    timeAbs loc unix / 86400 - 106751991073094 = (unix + loc unix) / 86400 ∧
      timeAbs loc unix % 86400 = (unix + loc unix) % 86400 := by
  unfold timeInRange at h
  unfold timeAbs unixToAbsolute
  omega

theorem timeAbs_range (loc : Location) (unix : Int) :
    0 ≤ timeAbs loc unix ∧ timeAbs loc unix < 18446744073709551616 := by
  unfold timeAbs
  omega

/-- C10 (counterexample): at 2023-11-30 23:59:59 UTC, in a zone eight hours east of UTC
the collection of shard 1 is `logging_1_202312`, while the month taken in UTC gives
`logging_1_202311`: the name follows the local zone of the process, not UTC, and so
depends on more than the shard index and the time. -/
theorem LoggingCollectionName_uses_local_zone :
    LoggingCollectionName exZoneEast8 1 1701388799 = "logging_1_202312" ∧
      LoggingCollectionName UTC 1 1701388799 = "logging_1_202311" := by
  decide

theorem appendInt_month_length (m : Int) (h1 : 1 ≤ m) (h12 : m ≤ 12) :
    (appendInt m 2).length = 2 := by
  interval_cases m <;> decide

/-- C10 (amended): `LoggingCollectionName(i, t)` is `logging_`, the decimal `i`, `_`, the
decimal year and the two-digit zero-padded month that `time.Unix(t, 0).Date()` gives in
the local zone of the process. For every `t` whose local time is in the range the
package represents without wrap-around, these are the Gregorian year and month of the
local time: the local day number of `t` lies in that month of that year. The name
depends on the zone only through its offset at `t`. With an offset between -12 and +14
hours, `t = 1700000000` gives `logging_{i}_202311`. -/
theorem LoggingCollectionName_local_month (loc : Location) (i t : Int) :
    (∃ y m, 1 ≤ m ∧ m ≤ 12 ∧ (appendInt m 2).length = 2 ∧
        LoggingCollectionName loc i t = "logging_" ++ fmtD i ++ "_" ++ fmtD y ++ appendInt m 2 ∧
        (timeInRange loc t →
          monthStart y m ≤ (t + loc t) / 86400 ∧ (t + loc t) / 86400 < monthStart y (m + 1))) ∧
      (∀ loc2 : Location, loc2 t = loc t →
        LoggingCollectionName loc2 i t = LoggingCollectionName loc i t) ∧
      (∀ zone : Location, -43200 ≤ zone 1700000000 → zone 1700000000 ≤ 50400 →
        timeInRange zone 1700000000 ∧
        LoggingCollectionName zone i 1700000000 = "logging_" ++ fmtD i ++ "_202311") := by
  refine ⟨?_, ?_, ?_⟩
  · obtain ⟨h1, h12, hlo, hhi, _⟩ := absDate_spec (timeAbs loc t)
    refine ⟨(timeDate loc t).1, (timeDate loc t).2.1, h1, h12,
      appendInt_month_length _ h1 h12, rfl, ?_⟩
    intro hr
    obtain ⟨hday, _⟩ := timeAbs_of_inRange loc t hr
    rw [hday] at hlo hhi
    exact ⟨hlo, hhi⟩
  · intro loc2 h
    simp only [LoggingCollectionName, timeDate, timeAbs, h]
  · intro zone hlo hhi
    have hr : timeInRange zone 1700000000 := by
      unfold timeInRange
      omega
    refine ⟨hr, ?_⟩
    have hd : timeAbs zone 1700000000 / 86400 = 106751991092769 ∨
        timeAbs zone 1700000000 / 86400 = 106751991092770 := by
      unfold timeAbs unixToAbsolute
      omega
    have e1 : yearDay 106751991092769 = (2023, 317) := by decide
    have e2 : yearDay 106751991092770 = (2023, 318) := by decide
    have m1 : monthDay (isLeap 2023) 317 = (11, 14) := by decide
    have m2 : monthDay (isLeap 2023) 318 = (11, 15) := by decide
    have hs : fmtD 2023 ++ appendInt 11 2 = "202311" := by decide
    have hname : LoggingCollectionName zone i 1700000000
        = "logging_" ++ fmtD i ++ ("_" ++ (fmtD 2023 ++ appendInt 11 2)) := by
      simp only [LoggingCollectionName, timeDate, absDate]
      rcases hd with hd | hd
      · rw [hd, e1]
        simp only [m1, String.append_assoc]
      · rw [hd, e2]
        simp only [m2, String.append_assoc]
    rw [hname, hs]
    rfl

/-- At the least `int64` Unix time the absolute time wraps around; the date and clock the
package then gives are those of a year far in the future. -/
theorem formatDateTime_wraps :
    formatDateTime UTC (-9223372036854775808) = "292277026596-12-04 15:30:08" ∧
      LoggingCollectionName UTC (-2147483648) (-9223372036854775808)
        = "logging_-2147483648_29227702659612" ∧
      ¬ timeInRange UTC (-9223372036854775808) := by
  decide

/-! ## Helper lemmas: the content template -/

theorem digitChar_ne_newline (k : Nat) (h : k < 10) : Nat.digitChar k ≠ '\n' := by
  interval_cases k <;> decide

theorem toDigitsCore_no_newline :
    ∀ (fuel n : Nat) (ds : List Char), '\n' ∉ ds → '\n' ∉ Nat.toDigitsCore 10 fuel n ds := by
  intro fuel
  induction fuel with
  | zero =>
    intro n ds h
    simpa [Nat.toDigitsCore] using h
  | succ fuel ih =>
    intro n ds h
    have hd : '\n' ∉ Nat.digitChar (n % 10) :: ds := by
      intro hmem
      rcases List.mem_cons.mp hmem with h1 | h1
      · exact digitChar_ne_newline (n % 10) (Nat.mod_lt _ (by decide)) h1.symm
      · exact h h1
    simp only [Nat.toDigitsCore]
    split
    · exact hd
    · exact ih _ _ hd

theorem natRepr_no_newline (n : Nat) : '\n' ∉ (toString n).data := by
  show '\n' ∉ (Nat.repr n).data
  simp only [Nat.repr, Nat.toDigits, List.asString]
  exact toDigitsCore_no_newline _ _ [] (by simp)

theorem fmtD_no_newline (x : Int) : '\n' ∉ (fmtD x).data := by
  unfold fmtD
  cases x with
  | ofNat m => exact natRepr_no_newline m
  | negSucc m =>
    show '\n' ∉ ("-" ++ Nat.repr (Nat.succ m)).data
    rw [String.data_append]
    intro hmem
    rcases List.mem_append.mp hmem with h1 | h1
    · exact absurd h1 (by decide)
    · exact natRepr_no_newline _ h1

theorem padDigits_no_newline (w n : Nat) : '\n' ∉ (padDigits w n).data := by
  unfold padDigits
  rw [String.data_append]
  intro hmem
  rcases List.mem_append.mp hmem with h1 | h1
  · have := List.eq_of_mem_replicate h1
    exact absurd this (by decide)
  · exact natRepr_no_newline _ h1

theorem appendInt_no_newline (x : Int) (w : Nat) : '\n' ∉ (appendInt x w).data := by
  unfold appendInt
  split
  · rw [String.data_append]
    intro hmem
    rcases List.mem_append.mp hmem with h1 | h1
    · exact absurd h1 (by decide)
    · exact padDigits_no_newline _ _ h1
  · exact padDigits_no_newline _ _

theorem LevelString_no_newline (lvl : Int) : '\n' ∉ (Level.String lvl).data := by
  unfold Level.String
  split_ifs <;> decide

theorem count_newline_append (a b : String) :
    (a ++ b).data.count '\n' = a.data.count '\n' + b.data.count '\n' := by
  rw [String.data_append, List.count_append]

theorem count_newline_zero (a : String) (h : '\n' ∉ a.data) : a.data.count '\n' = 0 :=
  List.count_eq_zero_of_not_mem h

theorem formatDateTime_no_newline (loc : Location) (unix : Int) :
    (formatDateTime loc unix).data.count '\n' = 0 := by
  simp only [formatDateTime, count_newline_append,
    count_newline_zero _ (appendInt_no_newline _ _)]
  decide

theorem month_length_le (y mo : Int) (h1 : 1 ≤ mo) (h12 : mo ≤ 12) :
    monthStart y (mo + 1) - monthStart y mo ≤ 31 := by
  unfold monthStart daysBeforeMonth
  interval_cases mo <;> first | (norm_num; done) | (norm_num; split_ifs <;> omega)

/-- The time line of the template: zero-padded fields with a month in 1..12, a day in
1..31 and a clock in 00:00:00..23:59:59; when the time is in the range of the package
they are the Gregorian date of the local day number and the clock of the local second
of the day. -/
theorem formatDateTime_fields (loc : Location) (unix : Int) :
    ∃ y mo d hh mi ss : Int,
      formatDateTime loc unix =
        appendInt y 4 ++ "-" ++ appendInt mo 2 ++ "-" ++ appendInt d 2 ++ " " ++
          appendInt hh 2 ++ ":" ++ appendInt mi 2 ++ ":" ++ appendInt ss 2 ∧
      1 ≤ mo ∧ mo ≤ 12 ∧ 1 ≤ d ∧ d ≤ 31 ∧
      0 ≤ hh ∧ hh ≤ 23 ∧ 0 ≤ mi ∧ mi ≤ 59 ∧ 0 ≤ ss ∧ ss ≤ 59 ∧
      (timeInRange loc unix →
        monthStart y mo ≤ (unix + loc unix) / 86400 ∧
        (unix + loc unix) / 86400 < monthStart y (mo + 1) ∧
        d = (unix + loc unix) / 86400 - monthStart y mo + 1 ∧
        hh * 3600 + mi * 60 + ss = (unix + loc unix) % 86400) := by
  obtain ⟨h1, h12, hlo, hhi, hd⟩ := absDate_spec (timeAbs loc unix)
  have hlen := month_length_le (absDate (timeAbs loc unix)).1 (absDate (timeAbs loc unix)).2.1
    h1 h12
  obtain ⟨ha0, _⟩ := timeAbs_range loc unix
  refine ⟨(timeDate loc unix).1, (timeDate loc unix).2.1, (timeDate loc unix).2.2,
    (timeClock loc unix).1, (timeClock loc unix).2.1, (timeClock loc unix).2.2,
    rfl, h1, h12, ?_, ?_, ?_, ?_, ?_, ?_, ?_, ?_, ?_⟩
  · show 1 ≤ (absDate (timeAbs loc unix)).2.2
    omega
  · show (absDate (timeAbs loc unix)).2.2 ≤ 31
    omega
  · simp only [timeClock]
    omega
  · simp only [timeClock]
    omega
  · simp only [timeClock]
    omega
  · simp only [timeClock]
    omega
  · simp only [timeClock]
    omega
  · simp only [timeClock]
    omega
  · intro hr
    obtain ⟨hday, hsec⟩ := timeAbs_of_inRange loc unix hr
    rw [hday] at hlo hhi hd
    refine ⟨hlo, hhi, hd, ?_⟩
    simp only [timeClock]
    omega

/-- C11: for a state with a rule whose hook is absent or has an empty hide-text list,
`parsingContent` returns exactly the template: keyword, tag, record IP, `time_sec`
formatted with the layout `YYYY-MM-DD HH:MM:SS` in the local zone (zero-padded fields;
the Gregorian date and clock of the local time whenever the time is in the range of
package `time`), `Level.String()` of the record, short, full, `{count}/{RateSec}s` with
the current count, and the machine IP; the keyword is `hook.KeyWord` when a hook is
present with a non-empty `KeyWord` and `[QELOG]` otherwise; when no substituted text
holds a line break the content has nine lines. -/
theorem parsingContent_is_template (p : Process) (rs : RuleState) (r : AlarmRule)
    (v : Logging) (hrule : rs.rule = some r)
    (hhook : rs.hook = none ∨ ∃ h, rs.hook = some h ∧ h.HideText = []) :
    ∃ content kw tm lv : String,
      rs.parsingContent p v = some content ∧
      content = kw ++ "\n标签: " ++ r.Tag ++ "\nIP: " ++ v.IP ++ "\n时间: " ++ tm ++
        "\n等级: " ++ lv ++ "\n短消息: " ++ v.Short ++ "\n详情: " ++ v.Full ++
        "\n频次: " ++ fmtD rs.count ++ "/" ++ fmtD r.RateSec ++ "s" ++
        "\n报警节点: " ++ p.machineIP ∧
      (∀ h, rs.hook = some h → h.KeyWord ≠ "" → kw = h.KeyWord) ∧
      (∀ h, rs.hook = some h → h.KeyWord = "" → kw = "[QELOG]") ∧
      (rs.hook = none → kw = "[QELOG]") ∧
      lv = Level.String v.Level ∧
      (v.Level = -1 → lv = "DEBUG") ∧ (v.Level = 0 → lv = "INFO") ∧
      (v.Level = 1 → lv = "WARN") ∧ (v.Level = 2 → lv = "ERROR") ∧
      (v.Level = 3 → lv = "DPANIC") ∧ (v.Level = 4 → lv = "PANIC") ∧
      (v.Level = 5 → lv = "FATAL") ∧
      tm = formatDateTime p.localZone v.TimeSec ∧
      (∃ y mo d hh mi ss : Int,
        tm = appendInt y 4 ++ "-" ++ appendInt mo 2 ++ "-" ++ appendInt d 2 ++ " " ++
          appendInt hh 2 ++ ":" ++ appendInt mi 2 ++ ":" ++ appendInt ss 2 ∧
        1 ≤ mo ∧ mo ≤ 12 ∧ 1 ≤ d ∧ d ≤ 31 ∧
        0 ≤ hh ∧ hh ≤ 23 ∧ 0 ≤ mi ∧ mi ≤ 59 ∧ 0 ≤ ss ∧ ss ≤ 59 ∧
        (timeInRange p.localZone v.TimeSec →
          monthStart y mo ≤ (v.TimeSec + p.localZone v.TimeSec) / 86400 ∧
          (v.TimeSec + p.localZone v.TimeSec) / 86400 < monthStart y (mo + 1) ∧
          d = (v.TimeSec + p.localZone v.TimeSec) / 86400 - monthStart y mo + 1 ∧
          hh * 3600 + mi * 60 + ss
            = (v.TimeSec + p.localZone v.TimeSec) % 86400)) ∧
      ('\n' ∉ kw.data → '\n' ∉ r.Tag.data → '\n' ∉ v.IP.data → '\n' ∉ v.Short.data →
        '\n' ∉ v.Full.data → '\n' ∉ p.machineIP.data → content.data.count '\n' = 8) := by
  have hcontent : rs.parsingContent p v = some (rs.template p r v) := by
    rcases hhook with h0 | ⟨h, hh, hempty⟩
    · simp [RuleState.parsingContent, RuleState.redact, hrule, h0]
    · simp [RuleState.parsingContent, RuleState.redact, hideAll, hrule, hh, hempty]
  refine ⟨rs.template p r v, rs.KeyWord, formatDateTime p.localZone v.TimeSec,
    Level.String v.Level, hcontent, rfl, ?_, ?_, ?_, rfl, ?_, ?_, ?_, ?_, ?_, ?_, ?_, rfl,
    formatDateTime_fields p.localZone v.TimeSec, ?_⟩
  · intro h hh hk
    simp [RuleState.KeyWord, hh, hk]
  · intro h hh hk
    simp [RuleState.KeyWord, hh, hk, ContentPrefix]
  · intro h0
    simp [RuleState.KeyWord, h0, ContentPrefix]
  · intro hl
    simp [Level.String, hl]
  · intro hl
    simp [Level.String, hl]
  · intro hl
    simp [Level.String, hl]
  · intro hl
    simp [Level.String, hl]
  · intro hl
    simp [Level.String, hl]
  · intro hl
    simp [Level.String, hl]
  · intro hl
    simp [Level.String, hl]
  · intro hkw htag hip hshort hfull hmip
    simp only [RuleState.template, count_newline_append, count_newline_zero _ hkw,
      count_newline_zero _ htag, count_newline_zero _ hip, count_newline_zero _ hshort,
      count_newline_zero _ hfull, count_newline_zero _ hmip,
      count_newline_zero _ (fmtD_no_newline _),
      count_newline_zero _ (LevelString_no_newline _), formatDateTime_no_newline]
    decide

set_option maxRecDepth 100000 in
/-- Witness of C11: the cooling state bound to a hook with keyword `[OPS]` and an empty
hide list renders the example record, in UTC, as the nine lines written out. -/
theorem parsingContent_is_template_witness :
    exQuiet.parsingContent exProcess exRecord = some
        "[OPS]\n标签: t\nIP: 1.2.3.4\n时间: 2023-11-14 22:13:20\n等级: ERROR\n短消息: oom\n详情: out of memory\n频次: 3/60s\n报警节点: 10.0.0.1" ∧
    ∃ content kw tm lv : String,
      exQuiet.parsingContent exProcess exRecord = some content ∧
      content = kw ++ "\n标签: " ++ exRule.Tag ++ "\nIP: " ++ exRecord.IP ++ "\n时间: " ++ tm ++
        "\n等级: " ++ lv ++ "\n短消息: " ++ exRecord.Short ++ "\n详情: " ++ exRecord.Full ++
        "\n频次: " ++ fmtD exQuiet.count ++ "/" ++ fmtD exRule.RateSec ++ "s" ++
        "\n报警节点: " ++ exProcess.machineIP ∧
      (∀ h, exQuiet.hook = some h → h.KeyWord ≠ "" → kw = h.KeyWord) ∧
      (∀ h, exQuiet.hook = some h → h.KeyWord = "" → kw = "[QELOG]") ∧
      (exQuiet.hook = none → kw = "[QELOG]") ∧
      lv = Level.String exRecord.Level ∧
      (exRecord.Level = -1 → lv = "DEBUG") ∧ (exRecord.Level = 0 → lv = "INFO") ∧
      (exRecord.Level = 1 → lv = "WARN") ∧ (exRecord.Level = 2 → lv = "ERROR") ∧
      (exRecord.Level = 3 → lv = "DPANIC") ∧ (exRecord.Level = 4 → lv = "PANIC") ∧
      (exRecord.Level = 5 → lv = "FATAL") ∧
      tm = formatDateTime exProcess.localZone exRecord.TimeSec ∧
      (∃ y mo d hh mi ss : Int,
        tm = appendInt y 4 ++ "-" ++ appendInt mo 2 ++ "-" ++ appendInt d 2 ++ " " ++
          appendInt hh 2 ++ ":" ++ appendInt mi 2 ++ ":" ++ appendInt ss 2 ∧
        1 ≤ mo ∧ mo ≤ 12 ∧ 1 ≤ d ∧ d ≤ 31 ∧
        0 ≤ hh ∧ hh ≤ 23 ∧ 0 ≤ mi ∧ mi ≤ 59 ∧ 0 ≤ ss ∧ ss ≤ 59 ∧
        (timeInRange exProcess.localZone exRecord.TimeSec →
          monthStart y mo ≤ (exRecord.TimeSec + exProcess.localZone exRecord.TimeSec) / 86400 ∧
          (exRecord.TimeSec + exProcess.localZone exRecord.TimeSec) / 86400 < monthStart y (mo + 1) ∧
          d = (exRecord.TimeSec + exProcess.localZone exRecord.TimeSec) / 86400 - monthStart y mo + 1 ∧
          hh * 3600 + mi * 60 + ss
            = (exRecord.TimeSec + exProcess.localZone exRecord.TimeSec) % 86400)) ∧
      ('\n' ∉ kw.data → '\n' ∉ exRule.Tag.data → '\n' ∉ exRecord.IP.data →
        '\n' ∉ exRecord.Short.data → '\n' ∉ exRecord.Full.data →
        '\n' ∉ exProcess.machineIP.data → content.data.count '\n' = 8) :=
  ⟨by decide,
   parsingContent_is_template exProcess exQuiet exRule exRecord rfl
    (Or.inr ⟨exQuietHook, rfl, rfl⟩)⟩

/-! ## Helper lemmas: rule keys -/

theorem split_at_first (c : Char) :
    ∀ (l1 l2 x y : List Char), c ∉ l1 → c ∉ l2 → l1 ++ c :: x = l2 ++ c :: y →
      l1 = l2 ∧ x = y := by
  intro l1
  induction l1 with
  | nil =>
    intro l2 x y _ h2 h
    cases l2 with
    | nil => simpa using h
    | cons b l2 =>
      simp only [List.nil_append, List.cons_append, List.cons.injEq] at h
      exact absurd (by simp [h.1]) h2
  | cons a l1 ih =>
    intro l2 x y h1 h2 h
    cases l2 with
    | nil =>
      simp only [List.nil_append, List.cons_append, List.cons.injEq] at h
      exact absurd (by simp [h.1]) h1
    | cons b l2 =>
      simp only [List.cons_append, List.cons.injEq] at h
      have := ih l2 x y (fun hm => h1 (List.mem_cons_of_mem _ hm))
        (fun hm => h2 (List.mem_cons_of_mem _ hm)) h.2
      exact ⟨by rw [h.1, this.1], this.2⟩

theorem split_at_last (c : Char) (l1 l2 x y : List Char) (h1 : c ∉ l1) (h2 : c ∉ l2)
    (h : x ++ c :: l1 = y ++ c :: l2) : x = y ∧ l1 = l2 := by
  have hrev : l1.reverse ++ c :: x.reverse = l2.reverse ++ c :: y.reverse := by
    have := congrArg List.reverse h
    simpa using this
  have := split_at_first c l1.reverse l2.reverse x.reverse y.reverse
    (by simpa using h1) (by simpa using h2) hrev
  exact ⟨List.reverse_injective this.2, List.reverse_injective this.1⟩

theorem LevelString_no_underscore (lvl : Int) : '_' ∉ (Level.String lvl).data := by
  unfold Level.String
  split_ifs <;> decide

theorem LevelString_injective_known (l1 l2 : Int) (h1 : -1 ≤ l1 ∧ l1 ≤ 5)
    (h2 : -1 ≤ l2 ∧ l2 ≤ 5) (h : Level.String l1 = Level.String l2) : l1 = l2 := by
  obtain ⟨h1a, h1b⟩ := h1
  obtain ⟨h2a, h2b⟩ := h2
  interval_cases l1 <;> interval_cases l2 <;> first | rfl | (exfalso; revert h; decide)

/-- What equal keys `module_short_level` say about the two triples. -/
theorem triple_of_key (m1 s1 m2 s2 : String) (l1 l2 : Int)
    (h : m1 ++ "_" ++ s1 ++ "_" ++ Level.String l1 = m2 ++ "_" ++ s2 ++ "_" ++ Level.String l2) :
    Level.String l1 = Level.String l2 ∧
      (('_' ∉ m1.data ∧ '_' ∉ m2.data) ∨ ('_' ∉ s1.data ∧ '_' ∉ s2.data) →
        m1 = m2 ∧ s1 = s2) ∧
      (-1 ≤ l1 ∧ l1 ≤ 5 → -1 ≤ l2 ∧ l2 ≤ 5 → l1 = l2) := by
  have hd := congrArg String.data h
  simp only [String.data_append] at hd
  have hd2 : (m1.data ++ '_' :: s1.data) ++ '_' :: (Level.String l1).data
      = (m2.data ++ '_' :: s2.data) ++ '_' :: (Level.String l2).data := by
    simpa using hd
  obtain ⟨hms, hl⟩ := split_at_last '_' _ _ _ _ (LevelString_no_underscore l1)
    (LevelString_no_underscore l2) hd2
  have hlev : Level.String l1 = Level.String l2 := String.ext hl
  refine ⟨hlev, ?_, fun k1 k2 => LevelString_injective_known l1 l2 k1 k2 hlev⟩
  rintro (⟨u1, u2⟩ | ⟨u1, u2⟩)
  · obtain ⟨e1, e2⟩ := split_at_first '_' _ _ _ _ u1 u2 hms
    exact ⟨String.ext e1, String.ext e2⟩
  · obtain ⟨e1, e2⟩ := split_at_last '_' _ _ _ _ u1 u2 hms
    exact ⟨String.ext e1, String.ext e2⟩

/-- A `Send` that returns leaves the rule and the key of the state alone. -/
theorem Send_frame (p : Process) (rs : RuleState) (e : SendEnv) (v : Option Logging)
    (res : SendResult) (h : rs.Send p e v = some res) :
    res.state.rule = rs.rule ∧ res.state.key = rs.key := by
  cases v with
  | none =>
    simp only [RuleState.Send, Option.some.injEq] at h
    subst h
    exact ⟨rfl, rfl⟩
  | some v =>
    cases hr : rs.rule with
    | none =>
      exfalso
      by_cases h0 : rs.latestSendTime = 0
      · simp [RuleState.Send, RuleState.isSend, RuleState.parsingContent, hr, h0] at h
      · simp [RuleState.Send, RuleState.isSend, hr, h0] at h
    | some r =>
      cases hm : rs.method with
      | none =>
        by_cases h0 : rs.latestSendTime = 0
        · simp [RuleState.Send, RuleState.isSend, RuleState.parsingContent, hr, hm, h0] at h
        · by_cases hg : wrapInt64 (e.nowGate - rs.latestSendTime) > r.RateSec
          · simp [RuleState.Send, RuleState.isSend, RuleState.parsingContent, hr, hm, h0, hg]
              at h
          · simp [RuleState.Send, RuleState.isSend, hr, h0, hg] at h
            subst h
            exact ⟨hr.symm ▸ rfl, rfl⟩
      | some n =>
        rw [Send_eq p rs r n e v hr hm] at h
        simp only [Option.some.injEq] at h
        subst h
        rw [← hr]
        split
        · split <;> exact ⟨rfl, rfl⟩
        · exact ⟨rfl, rfl⟩

/-- Evaluation of records keeps the registry well formed and never changes which rule
is registered under a key. -/
theorem AlarmIfHitRule_frame (p : Process) :
    ∀ (docs : List Logging) (al : Alarm) (envs : List SendEnv) (al2 : Alarm)
      (sent : List String), al.WellFormed →
      al.AlarmIfHitRule p docs envs = some (al2, sent) →
      al2.WellFormed ∧
        ∀ k, (al2.ruleState.get k).bind RuleState.rule
          = (al.ruleState.get k).bind RuleState.rule := by
  intro docs
  induction docs with
  | nil =>
    intro al envs al2 sent hwf h
    simp only [Alarm.AlarmIfHitRule, Option.some.injEq, Prod.mk.injEq] at h
    obtain ⟨rfl, _⟩ := h
    exact ⟨hwf, fun _ => rfl⟩
  | cons v docs ih =>
    intro al envs al2 sent hwf h
    cases hget : al.ruleState.get v.Key with
    | none =>
      simp only [Alarm.AlarmIfHitRule, hget] at h
      exact ih al envs.tail al2 sent hwf h
    | some st =>
      simp only [Alarm.AlarmIfHitRule, hget] at h
      cases hsend : st.Send p
          (envs.headD { nowGate := 0, nowStore := 0, sendFails := false }) (some v) with
      | none => simp only [hsend, reduceCtorEq] at h
      | some r =>
        simp only [hsend] at h
        obtain ⟨hfr, hfk⟩ := Send_frame p st _ _ r hsend
        obtain ⟨hk, rl, hrl, hrlk⟩ := hwf.2 (v.Key, st) (GoMap.mem_of_get _ _ _ hget)
        simp only at hk hrl hrlk
        have hwf1 : Alarm.WellFormed
            { al with ruleState := al.ruleState.set v.Key r.state } := by
          refine ⟨GoMap.nodup_set _ _ _ hwf.1, ?_⟩
          intro kv hkv
          rcases GoMap.mem_set _ _ _ _ hkv with rfl | hkv
          · exact ⟨by rw [hfk, hk], rl, by rw [hfr, hrl], hrlk⟩
          · exact hwf.2 kv hkv
        cases hrest : Alarm.AlarmIfHitRule p
            { al with ruleState := al.ruleState.set v.Key r.state } docs envs.tail with
        | none => simp only [hrest, reduceCtorEq] at h
        | some x =>
          obtain ⟨a3, sent3⟩ := x
          simp only [hrest, Option.some.injEq, Prod.mk.injEq] at h
          obtain ⟨rfl, _⟩ := h
          obtain ⟨hwf3, hsame⟩ := ih _ envs.tail a3 sent3 hwf1 hrest
          refine ⟨hwf3, ?_⟩
          intro k
          rw [hsame k]
          show ((al.ruleState.set v.Key r.state).get k).bind RuleState.rule = _
          rw [GoMap.get_set]
          by_cases hkk : v.Key = k
          · subst hkk
            simp [hget, hfr]
          · simp [hkk]

set_option maxRecDepth 100000 in
/-- C12 (counterexample): the records `(a_b, c, ERROR)` and `(a, b_c, ERROR)` have the
same key `a_b_c_ERROR` and different modules and shorts; two records that differ only
in the unknown levels 6 and 7 have the same key; and a registry holding the rule
`(a, b_c, ERROR)` hands the record `(a_b, c, ERROR)` to the notifier of that rule. -/
theorem Key_collides :
    (exUnderscoreRecord.Key = exOtherUnderscoreRecord.Key ∧
      exUnderscoreRecord.Module ≠ exOtherUnderscoreRecord.Module ∧
      exUnderscoreRecord.Short ≠ exOtherUnderscoreRecord.Short) ∧
    (({ exRecord with Level := 6 } : Logging).Key = ({ exRecord with Level := 7 } : Logging).Key ∧
      ({ exRecord with Level := 6 } : Logging).Level
        ≠ ({ exRecord with Level := 7 } : Logging).Level) ∧
    ((NewAlarm.InitRuleState [exUnderscoreRule] []).bind
        (fun a => a.AlarmIfHitRule exProcess [exUnderscoreRecord]
          [{ nowGate := 1700000000, nowStore := 1700000000, sendFails := false }])).map
      (fun x => ((x.1.ruleState.get exUnderscoreRecord.Key).bind
          (fun st => st.rule.map (fun r => (r.ModuleName, r.Short))), x.2.length))
      = some (some ("a", "b_c"), 1) := by
  decide

/-- C12 (amended): equal keys give equal level names; they give equal modules and
shorts when neither module holds `_` or neither short holds `_`, and equal levels when
both levels are in -1..5. `AlarmIfHitRule` on a well-formed registry touches nothing for
a record whose key has no state, and otherwise sends the record to the state registered
under the record's key, whose rule has that same key, so the record's own level name,
and under the same conditions its own module, short and level; which rule a key holds
never changes while records are evaluated. -/
theorem Key_identifies_triple (p : Process) (al : Alarm) (hwf : al.WellFormed) :
    (∀ a b : Logging, a.Key = b.Key →
      Level.String a.Level = Level.String b.Level ∧
      (('_' ∉ a.Module.data ∧ '_' ∉ b.Module.data) ∨ ('_' ∉ a.Short.data ∧ '_' ∉ b.Short.data) →
        a.Module = b.Module ∧ a.Short = b.Short) ∧
      (-1 ≤ a.Level ∧ a.Level ≤ 5 → -1 ≤ b.Level ∧ b.Level ≤ 5 → a.Level = b.Level)) ∧
    (∀ (v : Logging) (envs : List SendEnv),
      (al.ruleState.get v.Key = none → al.AlarmIfHitRule p [v] envs = some (al, [])) ∧
      ∀ st, al.ruleState.get v.Key = some st →
        al.AlarmIfHitRule p [v] envs =
          (st.Send p (envs.headD { nowGate := 0, nowStore := 0, sendFails := false })
              (some v)).map
            (fun res => ({ al with ruleState := al.ruleState.set v.Key res.state }, res.sent)) ∧
        ∃ r, st.rule = some r ∧ r.Key = v.Key ∧
          Level.String r.Level = Level.String v.Level ∧
          (('_' ∉ r.ModuleName.data ∧ '_' ∉ v.Module.data) ∨
              ('_' ∉ r.Short.data ∧ '_' ∉ v.Short.data) →
            r.ModuleName = v.Module ∧ r.Short = v.Short) ∧
          (-1 ≤ r.Level ∧ r.Level ≤ 5 → -1 ≤ v.Level ∧ v.Level ≤ 5 → r.Level = v.Level)) ∧
    (∀ (docs : List Logging) (envs : List SendEnv) (al2 : Alarm) (sent : List String),
      al.AlarmIfHitRule p docs envs = some (al2, sent) →
      al2.WellFormed ∧
        ∀ k, (al2.ruleState.get k).bind RuleState.rule
          = (al.ruleState.get k).bind RuleState.rule) := by
  refine ⟨?_, ?_, ?_⟩
  · intro a b hkey
    exact triple_of_key a.Module a.Short b.Module b.Short a.Level b.Level hkey
  · intro v envs
    refine ⟨?_, ?_⟩
    · intro hnone
      simp [Alarm.AlarmIfHitRule, hnone]
    · intro st hst
      refine ⟨?_, ?_⟩
      · simp only [Alarm.AlarmIfHitRule, hst]
        cases st.Send p (envs.headD { nowGate := 0, nowStore := 0, sendFails := false })
            (some v) with
        | none => rfl
        | some res => simp
      · obtain ⟨_, r, hr, hrk⟩ := hwf.2 (v.Key, st) (GoMap.mem_of_get _ _ _ hst)
        simp only at hr hrk
        exact ⟨r, hr, hrk, triple_of_key r.ModuleName r.Short v.Module v.Short r.Level
          v.Level hrk⟩
  · intro docs envs al2 sent h
    exact AlarmIfHitRule_frame p docs al envs al2 sent hwf h

/-- Witness of C12 (amended): the registry holding the cooling state of `exRule`. -/
theorem Key_identifies_triple_witness :
    (∀ a b : Logging, a.Key = b.Key →
      Level.String a.Level = Level.String b.Level ∧
      (('_' ∉ a.Module.data ∧ '_' ∉ b.Module.data) ∨ ('_' ∉ a.Short.data ∧ '_' ∉ b.Short.data) →
        a.Module = b.Module ∧ a.Short = b.Short) ∧
      (-1 ≤ a.Level ∧ a.Level ≤ 5 → -1 ≤ b.Level ∧ b.Level ≤ 5 → a.Level = b.Level)) ∧
    (∀ (v : Logging) (envs : List SendEnv),
      (exAlarm.ruleState.get v.Key = none →
        exAlarm.AlarmIfHitRule exProcess [v] envs = some (exAlarm, [])) ∧
      ∀ st, exAlarm.ruleState.get v.Key = some st →
        exAlarm.AlarmIfHitRule exProcess [v] envs =
          (st.Send exProcess (envs.headD { nowGate := 0, nowStore := 0, sendFails := false })
              (some v)).map
            (fun res =>
              ({ exAlarm with ruleState := exAlarm.ruleState.set v.Key res.state }, res.sent)) ∧
        ∃ r, st.rule = some r ∧ r.Key = v.Key ∧
          Level.String r.Level = Level.String v.Level ∧
          (('_' ∉ r.ModuleName.data ∧ '_' ∉ v.Module.data) ∨
              ('_' ∉ r.Short.data ∧ '_' ∉ v.Short.data) →
            r.ModuleName = v.Module ∧ r.Short = v.Short) ∧
          (-1 ≤ r.Level ∧ r.Level ≤ 5 → -1 ≤ v.Level ∧ v.Level ≤ 5 → r.Level = v.Level)) ∧
    (∀ (docs : List Logging) (envs : List SendEnv) (al2 : Alarm) (sent : List String),
      exAlarm.AlarmIfHitRule exProcess docs envs = some (al2, sent) →
      al2.WellFormed ∧
        ∀ k, (al2.ruleState.get k).bind RuleState.rule
          = (exAlarm.ruleState.get k).bind RuleState.rule) :=
  Key_identifies_triple exProcess exAlarm exAlarm_wellFormed

end Qelog
